import Mathlib

/-!
# Verification of the boston-logger sensitive-data masking engine

Shallow embedding of the core of the `boston_logger` Python package:

* `sensitive_paths.py` — the `SensitivePaths` rule compiler (`__init__`),
  the recursive masking pass (`chain_mask`, `process`, `_sanitize_dict`,
  `_sanitize_any`), the mask-processor registry
  (`add_mask_processor` / `remove_mask_processor`) and `sanitize_data`;
* `context_managers.py` — the `SensitivePathContext` stack and
  `sanitize_request_data` (query-string round trip, modelling the CPython
  `urllib.parse` helpers `parse_qs` / `urlencode` it calls);
* `logger.py` — `RequestEdgeEndFilter.filter` and the `JsonFormatter.format`
  payload-truncation logic.

Python `dict`s are modelled as insertion-ordered association lists
(`List (String × α)`) with CPython update semantics: assigning an existing
key keeps its position, assigning a fresh key appends.  In-place mutation of
nested structures becomes pure structural rebuilding; aliasing inside one
value is outside the model (JSON-shaped data has none).
-/

set_option maxHeartbeats 1000000

namespace BostonLogger

/-- Python values as they occur in the data the logger masks (JSON-shaped). -/
inductive PyVal where
  | none : PyVal
  | bool : Bool → PyVal
  | int : Int → PyVal
  | str : String → PyVal
  | list : List PyVal → PyVal
  | dict : List (String × PyVal) → PyVal

/-- A Python dict with string keys: insertion-ordered association list. -/
abbrev PDict := List (String × PyVal)

/-- `d.get(k)` / `d[k]` on a Python dict: first (only) binding of `k`. -/
def dLookup {α : Type} : List (String × α) → String → Option α
  | [], _ => Option.none
  | (k, v) :: t, key => if k = key then some v else dLookup t key

/-- `d[k] = v` on a Python dict: overwrite in place, else append at end. -/
def dInsert {α : Type} : List (String × α) → String → α → List (String × α)
  | [], key, v => [(key, v)]
  | (k, w) :: t, key, v =>
    if k = key then (k, v) :: t else (k, w) :: dInsert t key v

/-- The sentinel `MASK_STRING = "*** masked ***"` from `sensitive_paths.py`. -/
def MASK_STRING : String := "*** masked ***"

mutual

/-- `chain_mask(data)`: mask every value.  `None` stays `None`; a dict becomes
`\x7bk: MASK for k\x7d` when `SHOW_NESTED_KEYS_IN_SENSITIVE_PATHS` is on (the
`sn` argument) and `\x7bMASK: MASK\x7d` otherwise; a list masks each element;
anything else becomes the mask string. -/
def chain_mask (sn : Bool) : PyVal → PyVal
  | .none => .none
  | .dict es =>
    if sn then .dict (es.map fun kv => (kv.1, .str MASK_STRING))
    else .dict [(MASK_STRING, .str MASK_STRING)]
  | .list xs => .list (chain_mask_list sn xs)
  | _ => .str MASK_STRING

/-- `chain_mask` element-wise on a Python list. -/
def chain_mask_list (sn : Bool) : List PyVal → List PyVal
  | [] => []
  | x :: t => chain_mask sn x :: chain_mask_list sn t

end

/-- A value of the `root_paths` trie of `SensitivePaths`: either the terminal
marker `True` (mask from here down) or a nested dict of further segments. -/
inductive Rule where
  | leaf : Rule
  | node : List (String × Rule) → Rule

/-- The `root_paths` dict itself. -/
abbrev RuleDict := List (String × Rule)

/-- The `while keys:` loop of `SensitivePaths.__init__` for one pattern whose
segment list is `segs`, walking/building `d`.  A sole remaining `"*"` segment
is elided (terminal `True` one level up); hitting an existing `True` stops the
walk; exhausting the segments writes `True`. -/
def insertSegs (d : RuleDict) : List String → RuleDict
  | [] => d
  | [k] => dInsert d k .leaf
  | k :: rest =>
    if rest = ["*"] then dInsert d k .leaf
    else
      match dLookup d k with
      | some .leaf => d
      | some (.node sub) => dInsert d k (.node (insertSegs sub rest))
      | Option.none => dInsert d k (.node (insertSegs [] rest))

/-- `str.split("/")` on a list of characters; always returns at least one
(possibly empty) segment, like Python. -/
def splitOnSlash : List Char → List (List Char)
  | [] => [[]]
  | c :: rest =>
    match splitOnSlash rest with
    | [] => [[]]
    | h :: t => if c = '/' then [] :: h :: t else (c :: h) :: t

/-- `path.strip("/")`. -/
def stripSlashes (s : String) : String :=
  String.mk (((s.toList.dropWhile (· = '/')).reverse.dropWhile (· = '/')).reverse)

/-- `path.strip("/").split("/")`: the segment list of one pattern. -/
def splitPath (p : String) : List String :=
  (splitOnSlash (stripSlashes p).toList).map String.mk

/-- `SensitivePaths(*patterns)`: compile the patterns, in order, into the
`root_paths` trie. -/
def compileRules (patterns : List String) : RuleDict :=
  patterns.foldl (fun d p => insertSegs d (splitPath p)) []

/-- Replace every value of a dict by the mask string (the effect of
`data.update(chain_mask(data))` when show-nested-keys is on). -/
def maskValues (es : PDict) : PDict :=
  es.map fun kv => (kv.1, .str MASK_STRING)

mutual

/-- Nesting depth of a value: dicts and lists add one level. -/
def pyDepth : PyVal → Nat
  | .dict es => pyDepthEntries es + 1
  | .list xs => pyDepthList xs + 1
  | _ => 0

/-- Largest value depth among a dict's entries. -/
def pyDepthEntries : List (String × PyVal) → Nat
  | [] => 0
  | (_, v) :: t => max (pyDepth v) (pyDepthEntries t)

/-- Largest depth among a list's elements. -/
def pyDepthList : List PyVal → Nat
  | [] => 0
  | x :: t => max (pyDepth x) (pyDepthList t)

end

mutual

/-- `SensitivePaths._sanitize_any`, with a fuel argument that bounds how many
nested `_sanitize_dict` passes may run (the wrappers below always supply more
fuel than the data's depth, so the cutoff is never reached): dicts recurse
into `_sanitize_dict`, lists sanitize every element (a list consumes no path
segment), anything else is left alone. -/
def sanitizeAnyF (sn : Bool) (paths : RuleDict) (f : Nat) (v : PyVal) :
    PyVal :=
  match v with
  | .dict es => .dict (sanitizeDictF sn paths f es)
  | .list xs => .list (sanitizeListItemsF sn paths f xs)
  | v => v
termination_by (f, sizeOf v, 1)

/-- The `for item in data:` loop of `_sanitize_any` over a list. -/
def sanitizeListItemsF (sn : Bool) (paths : RuleDict) (f : Nat)
    (xs : List PyVal) : List PyVal :=
  match xs with
  | [] => []
  | x :: t => sanitizeAnyF sn paths f x :: sanitizeListItemsF sn paths f t
termination_by (f, sizeOf xs, 0)

/-- The `for v in data.values(): _sanitize_any(nested_paths, v)` loop run for
a non-terminal wildcard entry (in-place mutation of each value, so values that
are neither dict nor list are unchanged). -/
def sanitizeWildValuesF (sn : Bool) (sub : RuleDict) (f : Nat) (es : PDict) :
    PDict :=
  match es with
  | [] => []
  | (k, v) :: t =>
    (k, sanitizeAnyF sn sub f v) :: sanitizeWildValuesF sn sub f t
termination_by (f, sizeOf es, 0)

/-- The `for k, v in data.items():` loop of `_sanitize_dict`: keys not in
`paths` pass, a terminal rule chain-masks the value, a nested rule recurses. -/
def sanitizeItemsF (sn : Bool) (paths : RuleDict) (f : Nat) (es : PDict) :
    PDict :=
  match es with
  | [] => []
  | (k, v) :: t =>
    (match dLookup paths k with
     | Option.none => (k, v)
     | some .leaf => (k, chain_mask sn v)
     | some (.node sub) => (k, sanitizeAnyF sn sub f v))
      :: sanitizeItemsF sn paths f t
termination_by (f, sizeOf es, 0)

/-- `SensitivePaths._sanitize_dict`: first the wildcard entry (a terminal
wildcard either masks every value keeping the keys, when show-nested-keys is
on, or collapses the dict to `\x7bMASK: MASK\x7d`; a nested wildcard sanitizes
every value), then the per-key `items` pass over the result. -/
def sanitizeDictF (sn : Bool) (paths : RuleDict) (f : Nat) (es : PDict) :
    PDict :=
  match f with
  | 0 => es
  | g + 1 =>
    let es1 :=
      match dLookup paths "*" with
      | some .leaf =>
        if sn then maskValues es else [(MASK_STRING, .str MASK_STRING)]
      | some (.node sub) => sanitizeWildValuesF sn sub g es
      | Option.none => es
    sanitizeItemsF sn paths g es1
termination_by (f, sizeOf es, 0)

end

/-- `SensitivePaths._sanitize_dict` with the fuel sized to the data. -/
def sanitize_dict (sn : Bool) (paths : RuleDict) (es : PDict) : PDict :=
  sanitizeDictF sn paths (pyDepthEntries es + 1) es

/-- `SensitivePaths._sanitize_any` with the fuel sized to the data. -/
def sanitize_any (sn : Bool) (paths : RuleDict) (v : PyVal) : PyVal :=
  sanitizeAnyF sn paths (pyDepth v + 1) v

/-- `SensitivePaths.process`: a no-op unless
`ENABLE_SENSITIVE_PATHS_PROCESSOR` (the `enable` argument) is on. -/
def process (enable sn : Bool) (paths : RuleDict) (data : PDict) : PDict :=
  if enable then sanitize_dict sn paths data else data

mutual

/-- `copy.deepcopy` on a value: a fresh recursive copy (structurally equal to
the original — `sanitize_data` mutates the copy, never the caller's data). -/
def deepcopy : PyVal → PyVal
  | .none => .none
  | .bool b => .bool b
  | .int n => .int n
  | .str s => .str s
  | .list xs => .list (deepcopyList xs)
  | .dict es => .dict (deepcopyEntries es)

/-- `copy.deepcopy` element-wise on a list. -/
def deepcopyList : List PyVal → List PyVal
  | [] => []
  | x :: t => deepcopy x :: deepcopyList t

/-- `copy.deepcopy` entry-wise on a dict. -/
def deepcopyEntries : List (String × PyVal) → List (String × PyVal)
  | [] => []
  | (k, v) :: t => (k, deepcopy v) :: deepcopyEntries t

end

/-- The module-level registry of `sensitive_paths.py`: `_mask_processors`
(name to compiled rule set, insertion ordered) and `_global_masks` (the names
flagged `is_global`). -/
structure Registry where
  mask_processors : List (String × RuleDict)
  global_masks : List String

/-- `add_mask_processor(mask_name, processor, is_global=...)`: overwrite the
registry entry; add the name to the global set only when `is_global`. -/
def add_mask_processor (reg : Registry) (mask_name : String)
    (processor : RuleDict) (is_global : Bool) : Registry :=
  { mask_processors := dInsert reg.mask_processors mask_name processor
    global_masks :=
      if is_global ∧ mask_name ∉ reg.global_masks then
        reg.global_masks ++ [mask_name]
      else reg.global_masks }

/-- `remove_mask_processor(mask_name)`: drop the registry entry and the
global flag, both tolerating absence. -/
def remove_mask_processor (reg : Registry) (mask_name : String) : Registry :=
  { mask_processors := reg.mask_processors.filter fun kv => kv.1 ≠ mask_name
    global_masks := reg.global_masks.filter fun n => n ≠ mask_name }

/-- The registry right after import: `add_mask_processor("ALL",
SensitivePaths("*"))` on empty state. -/
def initialRegistry : Registry :=
  add_mask_processor ⟨[], []⟩ "ALL" (compileRules ["*"]) false

/-- The `SensitivePathContext._mask_names` class attribute: a stack of scope
frames, each a set of rule-set names (modelled as a list; membership is what
matters).  `SensitivePathContext(paths)` appends a frame. -/
abbrev ContextStack := List (List String)

/-- `SensitivePathContext.__init__`: push a scope frame (a lone string is
wrapped into a one-element set before pushing). -/
def pushScope (st : ContextStack) (names : List String) : ContextStack :=
  st ++ [names]

/-- `SensitivePathContext.__exit__`: `_mask_names.pop(-1)`. -/
def popScope (st : ContextStack) : ContextStack :=
  st.dropLast

/-- `SensitivePathContext.get_mask_names()`:
`set(itertools.chain(*_mask_names))`. -/
def get_mask_names (st : ContextStack) : List String :=
  st.flatten

/-- The name set `sanitize_data` works through:
`set(mask_names) | context_mask_names | _global_masks`, deduplicated the way
a Python set holds each name once (iteration order of a `set` is arbitrary;
this model fixes first-occurrence order). -/
def sanitizeNames (maskNames : List String) (st : ContextStack)
    (reg : Registry) : List String :=
  (maskNames ++ get_mask_names st ++ reg.global_masks).dedup

/-- `sanitize_data(data, *mask_names)`: union the explicit names with the
context stack's and the global ones, deep-copy the data, then apply each
named processor's `process` to the copy; a name missing from
`_mask_processors` raises `KeyError` (modelled as `Except.error name`). -/
def sanitize_data (reg : Registry) (st : ContextStack) (enable sn : Bool)
    (data : PDict) (maskNames : List String) : Except String PDict :=
  (sanitizeNames maskNames st reg).foldlM
    (fun d n =>
      match dLookup reg.mask_processors n with
      | some paths => Except.ok (process enable sn paths d)
      | Option.none => Except.error n)
    (deepcopyEntries data)

/-- Apply the registry's processor registered under `n` to `d` (total helper:
the missing-name case, which `sanitize_data` turns into a `KeyError`, leaves
the data unchanged here). -/
def processNamed (reg : Registry) (enable sn : Bool) (n : String)
    (d : PDict) : PDict :=
  match dLookup reg.mask_processors n with
  | some paths => process enable sn paths d
  | Option.none => d

/-- The mapping branch of `sanitize_request_data`: read the request's
`_apply_mask_processors` names (`reqNames`), push them as a context scope and
run `sanitize_data` with no explicit names. -/
def sanitize_request_data_dict (reg : Registry) (st : ContextStack)
    (enable sn : Bool) (reqNames : List String) (data : PDict) :
    Except String PDict :=
  sanitize_data reg (pushScope st reqNames) enable sn data []

/-- Escape a character for JSON string output (`json.dumps` additionally
escapes control and non-ASCII characters, which the data here never holds). -/
def jsonEscapeChar (c : Char) : List Char :=
  if c = '"' ∨ c = '\\' then ['\\', c] else [c]

/-- Escape a string for JSON output. -/
def jsonEscape (s : String) : String :=
  String.mk (s.toList.flatMap jsonEscapeChar)

mutual

/-- `json.dumps` with its default separators `", "` and `": "`. -/
def jsonDumps : PyVal → String
  | .none => "null"
  | .bool b => if b then "true" else "false"
  | .int n => toString n
  | .str s => "\"" ++ jsonEscape s ++ "\""
  | .list xs => "[" ++ jsonDumpsList xs ++ "]"
  | .dict es => "\x7b" ++ jsonDumpsEntries es ++ "\x7d"

/-- Comma-joined `json.dumps` of list elements. -/
def jsonDumpsList : List PyVal → String
  | [] => ""
  | [x] => jsonDumps x
  | x :: t => jsonDumps x ++ ", " ++ jsonDumpsList t

/-- Comma-joined `json.dumps` of dict entries. -/
def jsonDumpsEntries : List (String × PyVal) → String
  | [] => ""
  | [(k, v)] => "\"" ++ jsonEscape k ++ "\": " ++ jsonDumps v
  | (k, v) :: t =>
    "\"" ++ jsonEscape k ++ "\": " ++ jsonDumps v ++ ", " ++ jsonDumpsEntries t

end

/-- A single-quote character, for Python `repr` output. -/
def singleQuote : String := String.mk [Char.ofNat 39]

mutual

/-- Python `repr` of a value (strings are assumed quote- and escape-free, as
the masked log payloads here are). -/
def pyRepr : PyVal → String
  | .none => "None"
  | .bool b => if b then "True" else "False"
  | .int n => toString n
  | .str s => singleQuote ++ s ++ singleQuote
  | .list xs => "[" ++ pyReprList xs ++ "]"
  | .dict es => "\x7b" ++ pyReprEntries es ++ "\x7d"

/-- Comma-joined `repr` of list elements. -/
def pyReprList : List PyVal → String
  | [] => ""
  | [x] => pyRepr x
  | x :: t => pyRepr x ++ ", " ++ pyReprList t

/-- Comma-joined `repr` of dict entries. -/
def pyReprEntries : List (String × PyVal) → String
  | [] => ""
  | [(k, v)] => singleQuote ++ k ++ singleQuote ++ ": " ++ pyRepr v
  | (k, v) :: t =>
    singleQuote ++ k ++ singleQuote ++ ": " ++ pyRepr v ++ ", "
      ++ pyReprEntries t

end

/-- Python `str()` of a value: the string itself for strings, `repr`-style
rendering otherwise. -/
def pyStr : PyVal → String
  | .str s => s
  | v => pyRepr v

/-! ### The CPython `urllib.parse` helpers used by `sanitize_request_data`

`parse_qs(data, keep_blank_values=True, strict_parsing=True)` and
`urlencode(masked_data, doseq=True)` are external collaborators; the spec
describes them as opportunistic query-string parsing with
list-of-values-per-key semantics and re-encoding that restores multi-value
keys.  They are modelled here down to `quote_plus` / `unquote_plus`
percent-codecs over UTF-8 bytes. -/

/-- The characters `quote` never escapes (ASCII letters, digits, and
`_.-~`). -/
def isSafeChar (c : Char) : Bool :=
  c.isAlphanum || c = '_' || c = '.' || c = '-' || c = '~'

/-- Numeric value of a hex digit, upper or lower case. -/
def hexVal (c : Char) : Option Nat :=
  if '0' ≤ c ∧ c ≤ '9' then some (c.toNat - 48)
  else if 'A' ≤ c ∧ c ≤ 'F' then some (c.toNat - 55)
  else if 'a' ≤ c ∧ c ≤ 'f' then some (c.toNat - 87)
  else Option.none

/-- Upper-case hex digit of `n < 16`. -/
def toHexDigit (n : Nat) : Char :=
  if n < 10 then Char.ofNat (48 + n) else Char.ofNat (55 + n)

/-- UTF-8 encoding of one character, as its byte values. -/
def utf8EncodeChar (c : Char) : List Nat :=
  let n := c.toNat
  if n < 0x80 then [n]
  else if n < 0x800 then [0xC0 + n / 64, 0x80 + n % 64]
  else if n < 0x10000 then
    [0xE0 + n / 4096, 0x80 + (n / 64) % 64, 0x80 + n % 64]
  else
    [0xF0 + n / 0x40000, 0x80 + (n / 4096) % 64, 0x80 + (n / 64) % 64,
     0x80 + n % 64]

/-- UTF-8 encoding of a character list. -/
def utf8EncodeList (cs : List Char) : List Nat :=
  cs.flatMap utf8EncodeChar

/-- A UTF-8 continuation byte. -/
def isCont (b : Nat) : Bool :=
  0x80 ≤ b ∧ b < 0xC0

/-- The U+FFFD replacement character (`errors="replace"` decoding). -/
def replChar : Char := Char.ofNat 0xFFFD

mutual

/-- UTF-8 decoding with replacement of invalid sequences (one byte skipped
per error). -/
def utf8Decode : List Nat → List Char
  | [] => []
  | b :: rest =>
    if b < 0x80 then Char.ofNat b :: utf8Decode rest
    else if b < 0xC2 then replChar :: utf8Decode rest
    else if b < 0xE0 then utf8Dec2 b rest
    else if b < 0xF0 then utf8Dec3 b rest
    else if b < 0xF5 then utf8Dec4 b rest
    else replChar :: utf8Decode rest
termination_by l => (l.length, 0)

/-- Continuation of a two-byte sequence whose lead byte is `b`. -/
def utf8Dec2 (b : Nat) : List Nat → List Char
  | b1 :: rest2 =>
    if isCont b1 then
      Char.ofNat ((b - 0xC0) * 64 + (b1 - 0x80)) :: utf8Decode rest2
    else replChar :: utf8Decode (b1 :: rest2)
  | [] => [replChar]
termination_by l => (l.length, 1)

/-- Continuation of a three-byte sequence whose lead byte is `b`. -/
def utf8Dec3 (b : Nat) : List Nat → List Char
  | b1 :: b2 :: rest3 =>
    if (isCont b1 && isCont b2)
        && !(b = 0xE0 && b1 < 0xA0) && !(b = 0xED && 0xA0 ≤ b1) then
      Char.ofNat ((b - 0xE0) * 4096 + (b1 - 0x80) * 64 + (b2 - 0x80))
        :: utf8Decode rest3
    else replChar :: utf8Decode (b1 :: b2 :: rest3)
  | [b1] => replChar :: utf8Decode [b1]
  | [] => [replChar]
termination_by l => (l.length, 1)

/-- Continuation of a four-byte sequence whose lead byte is `b`. -/
def utf8Dec4 (b : Nat) : List Nat → List Char
  | b1 :: b2 :: b3 :: rest4 =>
    if ((isCont b1 && isCont b2) && isCont b3)
        && !(b = 0xF0 && b1 < 0x90) && !(b = 0xF4 && 0x90 ≤ b1) then
      Char.ofNat ((b - 0xF0) * 0x40000 + (b1 - 0x80) * 4096
          + (b2 - 0x80) * 64 + (b3 - 0x80))
        :: utf8Decode rest4
    else replChar :: utf8Decode (b1 :: b2 :: b3 :: rest4)
  | [b1, b2] => replChar :: utf8Decode [b1, b2]
  | [b1] => replChar :: utf8Decode [b1]
  | [] => [replChar]
termination_by l => (l.length, 1)

end

/-- `%XX` encoding of one byte, upper-case (as `quote` emits). -/
def pctEncodeByte (b : Nat) : List Char :=
  ['%', toHexDigit (b / 16), toHexDigit (b % 16)]

/-- `%`-encode a byte list. -/
def pctEncodeBytes (bs : List Nat) : List Char :=
  bs.flatMap pctEncodeByte

/-- The scanning core of `urllib.parse.unquote`: maximal runs of `%XX`
escapes are collected into a byte buffer (`acc`) and flushed through the
UTF-8 decoder at each literal character (or at the end); a malformed escape
flushes the buffer and keeps the `%` literally. -/
def pctDecode (cs : List Char) (acc : List Nat) : List Char :=
  match cs with
  | [] => utf8Decode acc
  | '%' :: a :: b :: rest =>
    match hexVal a, hexVal b with
    | some ha, some hb => pctDecode rest (acc ++ [16 * ha + hb])
    | _, _ => utf8Decode acc ++ '%' :: pctDecode (a :: b :: rest) []
  | '%' :: rest => utf8Decode acc ++ '%' :: pctDecode rest []
  | c :: rest => utf8Decode acc ++ c :: pctDecode rest []
termination_by cs.length
decreasing_by all_goals simp_arith [*]

/-- The `string.replace("+", " ")` step of `unquote_plus`. -/
def plusToSpace (c : Char) : Char :=
  if c = '+' then ' ' else c

/-- `urllib.parse.unquote_plus`: `+` becomes a space, then `%`-escapes are
decoded. -/
def unquote_plus (s : String) : String :=
  String.mk (pctDecode (s.toList.map plusToSpace) [])

/-- `quote_plus` on one character: safe characters stand, a space becomes
`+`, anything else is the `%XX` form of its UTF-8 bytes. -/
def quotePlusChar (c : Char) : List Char :=
  if isSafeChar c then [c]
  else if c = ' ' then ['+']
  else pctEncodeBytes (utf8EncodeChar c)

/-- `quote_plus` on a character list. -/
def quotePlusChars (cs : List Char) : List Char :=
  cs.flatMap quotePlusChar

/-- `urllib.parse.quote_plus` with `safe=""` (as `urlencode` uses it). -/
def quote_plus (s : String) : String :=
  String.mk (quotePlusChars s.toList)

/-- `str.split(sep)` on a character list (at least one segment, like
Python). -/
def splitOnChar (sep : Char) : List Char → List (List Char)
  | [] => [[]]
  | c :: rest =>
    match splitOnChar sep rest with
    | [] => [[]]
    | h :: t => if c = sep then [] :: h :: t else (c :: h) :: t

/-- `field.split("=", 1)` when the separator occurs: the part before the
first `=` and everything after it; `none` when there is no `=` (which
`strict_parsing=True` turns into a `ValueError`). -/
def splitEq : List Char → Option (List Char × List Char)
  | [] => Option.none
  | c :: rest =>
    if c = '=' then some ([], rest)
    else (splitEq rest).map fun p => (c :: p.1, p.2)

/-- The `parse_qs` grouping step: append `v` to the values of `k`, creating
the key on first sight. -/
def dAppend (d : List (String × List String)) (k v : String) :
    List (String × List String) :=
  match d with
  | [] => [(k, [v])]
  | (k', vs) :: t =>
    if k' = k then (k', vs ++ [v]) :: t else (k', vs) :: dAppend t k v

/-- `urllib.parse.parse_qsl(s, keep_blank_values=True, strict_parsing=True)`:
split on `&`, reject any field without `=`, and percent-decode names and
values (`+` as space). -/
def parse_qsl (s : String) : Option (List (String × String)) :=
  (splitOnChar '&' s.toList).mapM fun f =>
    (splitEq f).map fun p =>
      (unquote_plus (String.mk p.1), unquote_plus (String.mk p.2))

/-- `urllib.parse.parse_qs` under the same flags: `parse_qsl` grouped into a
list-of-values-per-key mapping (first-occurrence key order). -/
def parse_qs (s : String) : Option (List (String × List String)) :=
  (parse_qsl s).map fun ps => ps.foldl (fun d p => dAppend d p.1 p.2) []

/-- A parsed query string as the Python dict `sanitize_data` receives. -/
def qsToPDict (d : List (String × List String)) : PDict :=
  d.map fun kv => (kv.1, .list (kv.2.map .str))

/-- One `k=v` pair as `urlencode` renders it, as characters. -/
def urlencodePairChars (k v : String) : List Char :=
  quotePlusChars k.toList ++ '=' :: quotePlusChars v.toList

/-- The pairs `urlencode(..., doseq=True)` emits for one dict entry: a string
value gives one pair; a list gives one pair per element (non-string elements
through `str`); a non-sequence value falls back to `str`; a dict value
iterates its keys. -/
def urlencodeValue (k : String) : PyVal → List (List Char)
  | .str s => [urlencodePairChars k s]
  | .list xs =>
    xs.map fun x =>
      urlencodePairChars k (match x with | .str s => s | v => pyStr v)
  | .dict es => es.map fun kv => urlencodePairChars k kv.1
  | v => [urlencodePairChars k (pyStr v)]

/-- `"&".join(l)` on character lists. -/
def joinAmp : List (List Char) → List Char
  | [] => []
  | [f] => f
  | f :: t => f ++ '&' :: joinAmp t

/-- `urllib.parse.urlencode(d, doseq=True)`. -/
def urlencode (d : PDict) : String :=
  String.mk (joinAmp (d.flatMap fun kv => urlencodeValue kv.1 kv.2))

/-- The string branch of `sanitize_request_data`: parse as a query string; on
failure return the mask string or the input unchanged according to
`PREFER_TEXT_FALLBACK_MASKING` (the `preferText` argument); on success mask
the parsed mapping (under the request's `_apply_mask_processors` scope) and
re-encode with `doseq=True`. -/
def sanitize_request_data_str (reg : Registry) (st : ContextStack)
    (enable sn preferText : Bool) (reqNames : List String) (s : String) :
    Except String String :=
  match parse_qs s with
  | Option.none => Except.ok (if preferText then MASK_STRING else s)
  | some d =>
    (sanitize_request_data_dict reg st enable sn reqNames (qsToPDict d)).map
      urlencode

/-- Python truthiness of a value. -/
def pyTruthy : PyVal → Bool
  | .none => false
  | .bool b => b
  | .int n => n != 0
  | .str s => s ≠ ""
  | .list xs => !xs.isEmpty
  | .dict es => !es.isEmpty

/-- `JsonFormatter.format`, from the first `json.dumps` on: when
`MAX_JSON_DATA_TO_LOG` (the `maxJson` argument) is non-zero and the serialized
record is longer, set the `max_data_exceeded` flag, and — only when a truthy
`response` object exists and `maxJson - 50` is positive — truncate the
stringified `response["data"]`, appending the `**TRUNCATED**` marker; then
serialize again.  (The response object built by the event assemblers is always
a mapping.) -/
def jsonFormatterOutput (maxJson : Nat) (log_data : PDict) : String :=
  let resp := jsonDumps (.dict log_data)
  if maxJson ≠ 0 ∧ resp.length > maxJson then
    let ld := dInsert log_data "max_data_exceeded" (.bool true)
    let truncate_length : Int := (maxJson : Int) - 50
    let ld2 :=
      match dLookup ld "response" with
      | some (.dict res) =>
        if pyTruthy (.dict res) ∧ 0 < truncate_length then
          let response_data := pyStr ((dLookup res "data").getD (.str ""))
          if response_data.length > truncate_length.toNat then
            dInsert ld "response" (.dict (dInsert res "data"
              (.str (response_data.take truncate_length.toNat
                ++ " **TRUNCATED**"))))
          else ld
        else ld
      | _ => ld
    jsonDumps (.dict ld2)
  else resp

/-- The `RequestEdge` enum of `context_managers.py`. -/
inductive RequestEdge where
  | START : RequestEdge
  | END : RequestEdge
deriving DecidableEq

/-- The two record attributes `RequestEdgeEndFilter.filter` reads: `smart`
(via `getattr(record, "smart", False)`) and `edge`. -/
structure LogRecord where
  smart : Bool
  edge : RequestEdge

/-- `RequestEdgeEndFilter.filter`: non-smart records always pass; smart
records pass only on the END edge. -/
def RequestEdgeEndFilter (record : LogRecord) : Bool :=
  if ¬ record.smart then true
  else decide (record.edge = RequestEdge.END)

/-- The pair list `urlencode(..., doseq=True)` flattens a grouped query dict
into. -/
def flatPairs (d : List (String × List String)) : List (String × String) :=
  d.flatMap fun kv => kv.2.map fun v => (kv.1, v)

/-- `isinstance(v, dict)`. -/
def isMapping : PyVal → Bool
  | .dict _ => true
  | _ => false

/-- `isinstance(v, (list, tuple))`. -/
def isSequence : PyVal → Bool
  | .list _ => true
  | _ => false

/-- The segments a pattern effectively contributes: a trailing `"*"` behind
at least one other segment is elided, exactly as `SensitivePaths.__init__`
does. -/
def effSegs : List String → List String
  | [] => []
  | [k] => [k]
  | k :: rest => if rest = ["*"] then [k] else k :: effSegs rest

/-- The single-branch trie spelling out one segment path, ending in the
terminal marker `True`. -/
def chainSegs : List String → RuleDict
  | [] => []
  | [k] => [(k, Rule.leaf)]
  | k :: rest => [(k, Rule.node (chainSegs rest))]

/-- Walk a trie along a segment path. -/
def lookupPath : RuleDict → List String → Option Rule
  | _, [] => Option.none
  | d, [k] => dLookup d k
  | d, k :: rest =>
    match dLookup d k with
    | some (.node sub) => lookupPath sub rest
    | _ => Option.none

/-! ### The fuel of the sanitize model never binds

`sanitizeDictF` and friends carry a fuel argument only to satisfy the
termination checker; the following lemmas show the result is independent of
the fuel as soon as it exceeds the data's depth, so the wrappers
`sanitize_dict` / `sanitize_any` (which supply depth + 1) compute the
unbounded two-pass recursion of the Python source. -/

mutual

theorem depth_chain_mask (sn : Bool) :
    ∀ v : PyVal, pyDepth (chain_mask sn v) ≤ pyDepth v
  | .none => le_refl _
  | .bool _ => le_refl _
  | .int _ => le_refl _
  | .str _ => le_refl _
  | .dict es => by
    cases sn <;> simp [chain_mask, pyDepth, pyDepthEntries]
    · induction es with
      | nil => simp [pyDepthEntries]
      | cons kv t ih => simp [pyDepthEntries, pyDepth] at ih ⊢; omega
  | .list xs => by
    simp only [chain_mask, pyDepth]
    exact Nat.succ_le_succ (depth_chain_mask_list sn xs)

theorem depth_chain_mask_list (sn : Bool) :
    ∀ xs : List PyVal, pyDepthList (chain_mask_list sn xs) ≤ pyDepthList xs
  | [] => le_refl _
  | x :: t => by
    simp only [chain_mask_list, pyDepthList]
    exact max_le_max (depth_chain_mask sn x) (depth_chain_mask_list sn t)

end

theorem pyDepthEntries_maskValues (es : PDict) :
    pyDepthEntries (maskValues es) = 0 := by
  induction es with
  | nil => rfl
  | cons kv t ih => simp [maskValues, pyDepthEntries, pyDepth] at ih ⊢; omega

mutual

theorem depth_sanitizeAnyF (sn : Bool) (paths : RuleDict) (f : Nat)
    (v : PyVal) : pyDepth (sanitizeAnyF sn paths f v) ≤ pyDepth v := by
  cases v with
  | dict es =>
    simp only [sanitizeAnyF, pyDepth]
    exact Nat.succ_le_succ (depth_sanitizeDictF sn paths f es)
  | list xs =>
    simp only [sanitizeAnyF, pyDepth]
    exact Nat.succ_le_succ (depth_sanitizeListItemsF sn paths f xs)
  | none => simp [sanitizeAnyF]
  | bool b => simp [sanitizeAnyF]
  | int n => simp [sanitizeAnyF]
  | str s => simp [sanitizeAnyF]
termination_by (f, sizeOf v, 1)

theorem depth_sanitizeListItemsF (sn : Bool) (paths : RuleDict) (f : Nat)
    (xs : List PyVal) :
    pyDepthList (sanitizeListItemsF sn paths f xs) ≤ pyDepthList xs := by
  cases xs with
  | nil => simp [sanitizeListItemsF]
  | cons x t =>
    simp only [sanitizeListItemsF, pyDepthList]
    exact max_le_max (depth_sanitizeAnyF sn paths f x)
      (depth_sanitizeListItemsF sn paths f t)
termination_by (f, sizeOf xs, 0)

theorem depth_sanitizeWildValuesF (sn : Bool) (sub : RuleDict) (f : Nat)
    (es : PDict) :
    pyDepthEntries (sanitizeWildValuesF sn sub f es) ≤ pyDepthEntries es := by
  cases es with
  | nil => simp [sanitizeWildValuesF]
  | cons kv t =>
    obtain ⟨k, v⟩ := kv
    simp only [sanitizeWildValuesF, pyDepthEntries]
    exact max_le_max (depth_sanitizeAnyF sn sub f v)
      (depth_sanitizeWildValuesF sn sub f t)
termination_by (f, sizeOf es, 0)

theorem depth_sanitizeItemsF (sn : Bool) (paths : RuleDict) (f : Nat)
    (es : PDict) :
    pyDepthEntries (sanitizeItemsF sn paths f es) ≤ pyDepthEntries es := by
  cases es with
  | nil => simp [sanitizeItemsF]
  | cons kv t =>
    obtain ⟨k, v⟩ := kv
    have ht := depth_sanitizeItemsF sn paths f t
    cases hpk : dLookup paths k with
    | none =>
      simp only [sanitizeItemsF, hpk, pyDepthEntries]
      exact max_le_max (le_refl _) ht
    | some r =>
      cases r with
      | leaf =>
        simp only [sanitizeItemsF, hpk, pyDepthEntries]
        exact max_le_max (depth_chain_mask sn v) ht
      | node sub =>
        simp only [sanitizeItemsF, hpk, pyDepthEntries]
        exact max_le_max (depth_sanitizeAnyF sn sub f v) ht
termination_by (f, sizeOf es, 0)

theorem depth_sanitizeDictF (sn : Bool) (paths : RuleDict) (f : Nat)
    (es : PDict) :
    pyDepthEntries (sanitizeDictF sn paths f es) ≤ pyDepthEntries es := by
  cases f with
  | zero => simp [sanitizeDictF]
  | succ g =>
    have hstep : ∀ es1 : PDict, pyDepthEntries es1 ≤ pyDepthEntries es
        → pyDepthEntries (sanitizeItemsF sn paths g es1)
          ≤ pyDepthEntries es :=
      fun es1 h1 => le_trans (depth_sanitizeItemsF sn paths g es1) h1
    cases hpw : dLookup paths "*" with
    | none =>
      simp only [sanitizeDictF, hpw]
      exact hstep es (le_refl _)
    | some r =>
      cases r with
      | leaf =>
        cases sn with
        | true =>
          simp only [sanitizeDictF, hpw, if_pos]
          exact hstep (maskValues es)
            (by rw [pyDepthEntries_maskValues]; exact Nat.zero_le _)
        | false =>
          simp only [sanitizeDictF, hpw, Bool.false_eq_true, if_false]
          exact hstep [(MASK_STRING, PyVal.str MASK_STRING)]
            (by simp [pyDepthEntries, pyDepth])
      | node sub =>
        simp only [sanitizeDictF, hpw]
        exact hstep _ (depth_sanitizeWildValuesF sn sub g es)
termination_by (f, sizeOf es, 0)

end

mutual

theorem fuel_sanitizeAnyF (sn : Bool) :
    ∀ (paths : RuleDict) (f g : Nat) (v : PyVal),
      pyDepth v ≤ f → pyDepth v ≤ g →
      sanitizeAnyF sn paths f v = sanitizeAnyF sn paths g v
  | paths, f, g, .dict es, hf, hg => by
    simp only [pyDepth] at hf hg
    simp only [sanitizeAnyF]
    rw [fuel_sanitizeDictF sn paths f g es (by omega) (by omega)]
  | paths, f, g, .list xs, hf, hg => by
    simp only [pyDepth] at hf hg
    simp only [sanitizeAnyF]
    rw [fuel_sanitizeListItemsF sn paths f g xs (by omega) (by omega)]
  | _, _, _, .none, _, _ => by simp [sanitizeAnyF]
  | _, _, _, .bool b, _, _ => by simp [sanitizeAnyF]
  | _, _, _, .int n, _, _ => by simp [sanitizeAnyF]
  | _, _, _, .str s, _, _ => by simp [sanitizeAnyF]
termination_by _ f _ v => (f, sizeOf v, 1)

theorem fuel_sanitizeListItemsF (sn : Bool) :
    ∀ (paths : RuleDict) (f g : Nat) (xs : List PyVal),
      pyDepthList xs ≤ f → pyDepthList xs ≤ g →
      sanitizeListItemsF sn paths f xs = sanitizeListItemsF sn paths g xs
  | _, _, _, [], _, _ => by simp [sanitizeListItemsF]
  | paths, f, g, x :: t, hf, hg => by
    simp only [pyDepthList] at hf hg
    simp only [sanitizeListItemsF]
    rw [fuel_sanitizeAnyF sn paths f g x (le_trans (le_max_left _ _) hf)
        (le_trans (le_max_left _ _) hg),
      fuel_sanitizeListItemsF sn paths f g t (le_trans (le_max_right _ _) hf)
        (le_trans (le_max_right _ _) hg)]
termination_by _ f _ xs => (f, sizeOf xs, 0)

theorem fuel_sanitizeWildValuesF (sn : Bool) :
    ∀ (sub : RuleDict) (f g : Nat) (es : PDict),
      pyDepthEntries es ≤ f → pyDepthEntries es ≤ g →
      sanitizeWildValuesF sn sub f es = sanitizeWildValuesF sn sub g es
  | _, _, _, [], _, _ => by simp [sanitizeWildValuesF]
  | sub, f, g, (k, v) :: t, hf, hg => by
    simp only [pyDepthEntries] at hf hg
    simp only [sanitizeWildValuesF]
    rw [fuel_sanitizeAnyF sn sub f g v (le_trans (le_max_left _ _) hf)
        (le_trans (le_max_left _ _) hg),
      fuel_sanitizeWildValuesF sn sub f g t (le_trans (le_max_right _ _) hf)
        (le_trans (le_max_right _ _) hg)]
termination_by _ f _ es => (f, sizeOf es, 0)

theorem fuel_sanitizeItemsF (sn : Bool) :
    ∀ (paths : RuleDict) (f g : Nat) (es : PDict),
      pyDepthEntries es ≤ f → pyDepthEntries es ≤ g →
      sanitizeItemsF sn paths f es = sanitizeItemsF sn paths g es
  | _, _, _, [], _, _ => by simp [sanitizeItemsF]
  | paths, f, g, (k, v) :: t, hf, hg => by
    simp only [pyDepthEntries] at hf hg
    have ht := fuel_sanitizeItemsF sn paths f g t
      (le_trans (le_max_right _ _) hf) (le_trans (le_max_right _ _) hg)
    cases hpk : dLookup paths k with
    | none => simp only [sanitizeItemsF, hpk, ht]
    | some r =>
      cases r with
      | leaf => simp only [sanitizeItemsF, hpk, ht]
      | node sub =>
        simp only [sanitizeItemsF, hpk, ht,
          fuel_sanitizeAnyF sn sub f g v (le_trans (le_max_left _ _) hf)
            (le_trans (le_max_left _ _) hg)]
termination_by _ f _ es => (f, sizeOf es, 0)

theorem fuel_sanitizeDictF (sn : Bool) :
    ∀ (paths : RuleDict) (f g : Nat) (es : PDict),
      pyDepthEntries es < f → pyDepthEntries es < g →
      sanitizeDictF sn paths f es = sanitizeDictF sn paths g es
  | _, 0, _, _, hf, _ => absurd hf (by omega)
  | _, _ + 1, 0, _, _, hg => absurd hg (by omega)
  | paths, f1 + 1, g1 + 1, es, hf, hg => by
    have hf1 : pyDepthEntries es ≤ f1 := by omega
    have hg1 : pyDepthEntries es ≤ g1 := by omega
    cases hpw : dLookup paths "*" with
    | none =>
      simp only [sanitizeDictF, hpw]
      exact fuel_sanitizeItemsF sn paths f1 g1 es hf1 hg1
    | some r =>
      cases r with
      | leaf =>
        have hes1 : pyDepthEntries (if sn then maskValues es
            else [(MASK_STRING, PyVal.str MASK_STRING)]) = 0 := by
          cases sn <;>
            simp [pyDepthEntries_maskValues, pyDepthEntries, pyDepth]
        rw [show sanitizeDictF sn paths (f1 + 1) es
            = sanitizeItemsF sn paths f1 (if sn then maskValues es
                else [(MASK_STRING, PyVal.str MASK_STRING)]) by
              simp only [sanitizeDictF, hpw],
          show sanitizeDictF sn paths (g1 + 1) es
            = sanitizeItemsF sn paths g1 (if sn then maskValues es
                else [(MASK_STRING, PyVal.str MASK_STRING)]) by
              simp only [sanitizeDictF, hpw]]
        exact fuel_sanitizeItemsF sn paths f1 g1 _
          (by rw [hes1]; omega) (by rw [hes1]; omega)
      | node sub =>
        rw [show sanitizeDictF sn paths (f1 + 1) es
            = sanitizeItemsF sn paths f1 (sanitizeWildValuesF sn sub f1 es) by
              simp only [sanitizeDictF, hpw],
          show sanitizeDictF sn paths (g1 + 1) es
            = sanitizeItemsF sn paths g1 (sanitizeWildValuesF sn sub g1 es) by
              simp only [sanitizeDictF, hpw],
          fuel_sanitizeWildValuesF sn sub f1 g1 es hf1 hg1]
        exact fuel_sanitizeItemsF sn paths f1 g1 _
          (le_trans (depth_sanitizeWildValuesF sn sub g1 es) hf1)
          (le_trans (depth_sanitizeWildValuesF sn sub g1 es) hg1)
termination_by _ f _ es => (f, sizeOf es, 0)

end

/-- The wrapper's fuel never binds: any fuel beyond the dict's depth computes
the same result as `sanitize_dict`, so the fuelled model agrees with the
unbounded two-pass recursion of `_sanitize_dict` in the Python source. -/
theorem sanitize_dict_fuel_irrelevant (sn : Bool) (paths : RuleDict)
    (es : PDict) (f : Nat) (hf : pyDepthEntries es < f) :
    sanitizeDictF sn paths f es = sanitize_dict sn paths es :=
  fuel_sanitizeDictF sn paths f (pyDepthEntries es + 1) es hf
    (Nat.lt_succ_self _)

/-- Same statement for the `_sanitize_any` wrapper. -/
theorem sanitize_any_fuel_irrelevant (sn : Bool) (paths : RuleDict)
    (v : PyVal) (f : Nat) (hf : pyDepth v ≤ f) :
    sanitizeAnyF sn paths f v = sanitize_any sn paths v :=
  fuel_sanitizeAnyF sn paths f (pyDepth v + 1) v hf (Nat.le_succ _)

/-! ### Basic dictionary lemmas -/

theorem char_valid_ranges (c : Char) :
    c.toNat < 0xd800 ∨ (0xdfff < c.toNat ∧ c.toNat < 0x110000) := by
  have h := c.valid
  simpa [UInt32.isValidChar, Nat.isValidChar] using h

theorem hexVal_toHexDigit (n : Nat) (h : n < 16) :
    hexVal (toHexDigit n) = some n := by
  interval_cases n <;> decide

theorem utf8EncodeChar_lt (c : Char) : ∀ b ∈ utf8EncodeChar c, b < 256 := by
  have hv := char_valid_ranges c
  intro b hb
  simp only [utf8EncodeChar] at hb
  split_ifs at hb <;> simp at hb <;> omega

theorem pctDecode_encodeBytes (bytes : List Nat) (rest : List Char)
    (acc : List Nat) (h : ∀ b ∈ bytes, b < 256) :
    pctDecode (pctEncodeBytes bytes ++ rest) acc = pctDecode rest (acc ++ bytes) := by
  induction bytes generalizing acc with
  | nil => simp [pctEncodeBytes]
  | cons b bs ih =>
    have hb := h b (by simp)
    have h1 : hexVal (toHexDigit (b / 16)) = some (b / 16) :=
      hexVal_toHexDigit _ (by omega)
    have h2 : hexVal (toHexDigit (b % 16)) = some (b % 16) :=
      hexVal_toHexDigit _ (by omega)
    have hbb : 16 * (b / 16) + b % 16 = b := by omega
    simp only [pctEncodeBytes, List.flatMap_cons, pctEncodeByte,
      List.append_assoc, List.cons_append, pctDecode, h1, h2, hbb]
    simp only [List.nil_append]
    have hih := ih (acc ++ [b]) (fun x hx => h x (by simp [hx]))
    simp only [pctEncodeBytes] at hih
    rw [hih]
    simp

theorem dLookup_dInsert {α : Type} (d : List (String × α)) (k : String)
    (v : α) : dLookup (dInsert d k v) k = some v := by
  induction d with
  | nil => simp [dInsert, dLookup]
  | cons hd t ih =>
    obtain ⟨k', w⟩ := hd
    by_cases h : k' = k <;> simp [dInsert, dLookup, h, ih]

theorem dLookup_dInsert_ne {α : Type} (d : List (String × α)) (k k' : String)
    (v : α) (h : k ≠ k') : dLookup (dInsert d k v) k' = dLookup d k' := by
  induction d with
  | nil => simp [dInsert, dLookup, h]
  | cons hd t ih =>
    obtain ⟨k'', w⟩ := hd
    by_cases h2 : k'' = k <;> simp [dInsert, dLookup, h2, ih]
    · subst h2; simp [h]

theorem utf8Decode_encodeChar (c : Char) (bs : List Nat) :
    utf8Decode (utf8EncodeChar c ++ bs) = c :: utf8Decode bs := by
  have hv := char_valid_ranges c
  by_cases h1 : c.toNat < 0x80
  · have he : utf8EncodeChar c = [c.toNat] := by simp [utf8EncodeChar, h1]
    rw [he]
    show utf8Decode (c.toNat :: bs) = c :: utf8Decode bs
    simp only [utf8Decode, if_pos h1, Char.ofNat_toNat]
  · by_cases h2 : c.toNat < 0x800
    · have he : utf8EncodeChar c
          = [0xC0 + c.toNat / 64, 0x80 + c.toNat % 64] := by
        simp [utf8EncodeChar, h1, h2]
      have e1 : ¬(0xC0 + c.toNat / 64 < 0x80) := by omega
      have e2 : ¬(0xC0 + c.toNat / 64 < 0xC2) := by omega
      have e3 : 0xC0 + c.toNat / 64 < 0xE0 := by omega
      have e4 : isCont (0x80 + c.toNat % 64) = true := by
        simp only [isCont, decide_eq_true_eq]; omega
      have e5 : (0xC0 + c.toNat / 64 - 0xC0) * 64 + (0x80 + c.toNat % 64 - 0x80)
          = c.toNat := by omega
      rw [he]
      show utf8Decode ((0xC0 + c.toNat / 64) :: (0x80 + c.toNat % 64) :: bs)
          = c :: utf8Decode bs
      simp only [utf8Decode, if_neg e1, if_neg e2, if_pos e3, utf8Dec2, e4,
        if_true, e5, Char.ofNat_toNat]
    · by_cases h3 : c.toNat < 0x10000
      · have he : utf8EncodeChar c
            = [0xE0 + c.toNat / 4096, 0x80 + (c.toNat / 64) % 64,
               0x80 + c.toNat % 64] := by
          simp [utf8EncodeChar, h1, h2, h3]
        have e1 : ¬(0xE0 + c.toNat / 4096 < 0x80) := by omega
        have e2 : ¬(0xE0 + c.toNat / 4096 < 0xC2) := by omega
        have e3 : ¬(0xE0 + c.toNat / 4096 < 0xE0) := by omega
        have e4 : 0xE0 + c.toNat / 4096 < 0xF0 := by omega
        have e5 : ((isCont (0x80 + (c.toNat / 64) % 64)
              && isCont (0x80 + c.toNat % 64))
            && !(0xE0 + c.toNat / 4096 = 0xE0
                  && 0x80 + (c.toNat / 64) % 64 < 0xA0)
            && !(0xE0 + c.toNat / 4096 = 0xED
                  && 0xA0 ≤ 0x80 + (c.toNat / 64) % 64)) = true := by
          simp only [isCont, Bool.and_eq_true, Bool.not_eq_true',
            Bool.and_eq_false_iff, decide_eq_true_eq, decide_eq_false_iff_not]
          omega
        have e6 : (0xE0 + c.toNat / 4096 - 0xE0) * 4096
            + (0x80 + (c.toNat / 64) % 64 - 0x80) * 64
            + (0x80 + c.toNat % 64 - 0x80) = c.toNat := by omega
        rw [he]
        show utf8Decode ((0xE0 + c.toNat / 4096)
            :: (0x80 + c.toNat / 64 % 64) :: (0x80 + c.toNat % 64) :: bs)
            = c :: utf8Decode bs
        simp only [utf8Decode, if_neg e1, if_neg e2, if_neg e3, if_pos e4,
          utf8Dec3, e5, if_true, e6, Char.ofNat_toNat]
      · have h4 : c.toNat < 0x110000 := by omega
        have he : utf8EncodeChar c
            = [0xF0 + c.toNat / 0x40000, 0x80 + (c.toNat / 4096) % 64,
               0x80 + (c.toNat / 64) % 64, 0x80 + c.toNat % 64] := by
          simp [utf8EncodeChar, h1, h2, h3]
        have e1 : ¬(0xF0 + c.toNat / 0x40000 < 0x80) := by omega
        have e2 : ¬(0xF0 + c.toNat / 0x40000 < 0xC2) := by omega
        have e3 : ¬(0xF0 + c.toNat / 0x40000 < 0xE0) := by omega
        have e4 : ¬(0xF0 + c.toNat / 0x40000 < 0xF0) := by omega
        have e5 : 0xF0 + c.toNat / 0x40000 < 0xF5 := by omega
        have e6 : (((isCont (0x80 + (c.toNat / 4096) % 64)
              && isCont (0x80 + (c.toNat / 64) % 64))
              && isCont (0x80 + c.toNat % 64))
            && !(0xF0 + c.toNat / 0x40000 = 0xF0
                  && 0x80 + (c.toNat / 4096) % 64 < 0x90)
            && !(0xF0 + c.toNat / 0x40000 = 0xF4
                  && 0x90 ≤ 0x80 + (c.toNat / 4096) % 64)) = true := by
          simp only [isCont, Bool.and_eq_true, Bool.not_eq_true',
            Bool.and_eq_false_iff, decide_eq_true_eq, decide_eq_false_iff_not]
          omega
        have e7 : (0xF0 + c.toNat / 0x40000 - 0xF0) * 0x40000
            + (0x80 + (c.toNat / 4096) % 64 - 0x80) * 4096
            + (0x80 + (c.toNat / 64) % 64 - 0x80) * 64
            + (0x80 + c.toNat % 64 - 0x80) = c.toNat := by omega
        rw [he]
        show utf8Decode ((0xF0 + c.toNat / 0x40000)
            :: (0x80 + c.toNat / 4096 % 64) :: (0x80 + c.toNat / 64 % 64)
            :: (0x80 + c.toNat % 64) :: bs) = c :: utf8Decode bs
        simp only [utf8Decode, if_neg e1, if_neg e2, if_neg e3, if_neg e4,
          if_pos e5, utf8Dec4, e6, if_true, e7, Char.ofNat_toNat]

/-- Decoding an encoded character list recovers it, with any tail decoded
independently. -/
theorem utf8Decode_encodeList (cs : List Char) (bs : List Nat) :
    utf8Decode (utf8EncodeList cs ++ bs) = cs ++ utf8Decode bs := by
  induction cs with
  | nil => simp [utf8EncodeList]
  | cons c t ih =>
    simp only [utf8EncodeList, List.flatMap_cons, List.append_assoc]
    rw [utf8Decode_encodeChar]
    simp only [utf8EncodeList] at ih
    simp [ih]

theorem utf8Decode_nil : utf8Decode [] = [] := by
  simp [utf8Decode]

theorem utf8Decode_encodeList_nil (cs : List Char) :
    utf8Decode (utf8EncodeList cs) = cs := by
  have h := utf8Decode_encodeList cs []
  rw [List.append_nil, utf8Decode_nil, List.append_nil] at h
  exact h

theorem map_eq_self {α : Type} (f : α → α) (l : List α)
    (h : ∀ x ∈ l, f x = x) : l.map f = l := by
  induction l with
  | nil => rfl
  | cons a t ih => simp [h a (by simp), ih (fun x hx => h x (by simp [hx]))]

theorem safeChar_props (c : Char) (h : isSafeChar c = true) :
    c ≠ '%' ∧ c ≠ '+' ∧ c ≠ '&' ∧ c ≠ '=' := by
  refine ⟨?_, ?_, ?_, ?_⟩ <;> rintro rfl <;> exact absurd h (by decide)

theorem pctEncodeByte_props (b : Nat) (h : b < 256) :
    ∀ ch ∈ pctEncodeByte b, ch ≠ '+' ∧ ch ≠ '&' ∧ ch ≠ '=' := by
  intro ch hch
  have h1 : b / 16 < 16 := by omega
  have h2 : b % 16 < 16 := by omega
  simp only [pctEncodeByte, List.mem_cons, List.not_mem_nil, or_false] at hch
  rcases hch with rfl | rfl | rfl
  · exact ⟨by decide, by decide, by decide⟩
  · revert h1; generalize b / 16 = n; intro h1
    interval_cases n <;> exact ⟨by decide, by decide, by decide⟩
  · revert h2; generalize b % 16 = n; intro h2
    interval_cases n <;> exact ⟨by decide, by decide, by decide⟩

theorem pctEncodeBytes_props (bs : List Nat) (h : ∀ b ∈ bs, b < 256) :
    ∀ ch ∈ pctEncodeBytes bs, ch ≠ '+' ∧ ch ≠ '&' ∧ ch ≠ '=' := by
  intro ch hch
  simp only [pctEncodeBytes, List.mem_flatMap] at hch
  obtain ⟨b, hb, hch⟩ := hch
  exact pctEncodeByte_props b (h b hb) ch hch

/-- The characters `quote_plus` can emit never include `&` or `=` (so fields
and pairs of an encoded query string split back apart). -/
theorem quotePlusChar_props (c : Char) :
    ∀ ch ∈ quotePlusChar c, ch ≠ '&' ∧ ch ≠ '=' := by
  intro ch hch
  simp only [quotePlusChar] at hch
  split_ifs at hch with h1 h2
  · simp only [List.mem_singleton] at hch
    rcases hch with rfl
    exact ⟨(safeChar_props _ h1).2.2.1, (safeChar_props _ h1).2.2.2⟩
  · simp only [List.mem_singleton] at hch
    rcases hch with rfl
    exact ⟨by decide, by decide⟩
  · have := pctEncodeBytes_props (utf8EncodeChar c) (utf8EncodeChar_lt c)
      ch hch
    exact ⟨this.2.1, this.2.2⟩

/-- After the `+`-to-space pass, one quoted character reads back as either
the literal character or its `%`-escape run. -/
theorem quotePlusChar_map_plus (c : Char) :
    (quotePlusChar c).map plusToSpace
      = if isSafeChar c then [c]
        else if c = ' ' then [' ']
        else pctEncodeBytes (utf8EncodeChar c) := by
  simp only [quotePlusChar]
  split_ifs with h1 h2
  · simp [plusToSpace, (safeChar_props c h1).2.1]
  · simp [plusToSpace]
  · exact map_eq_self _ _ fun x hx =>
      by simp [plusToSpace,
        (pctEncodeBytes_props _ (utf8EncodeChar_lt c) x hx).1]

/-- A literal non-`%` character flushes the pending byte run. -/
theorem pctDecode_literal (c : Char) (h : c ≠ '%') (rest : List Char)
    (acc : List Nat) :
    pctDecode (c :: rest) acc = utf8Decode acc ++ c :: pctDecode rest [] := by
  rcases rest with _ | ⟨a, rest2⟩
  · simp [pctDecode, h]
  · rcases rest2 with _ | ⟨b, rest3⟩
    · simp [pctDecode, h]
    · simp [pctDecode, h]

/-- Percent-decoding inverts `quote_plus` character-wise, with a pending
prefix of already-collected encoded bytes. -/
theorem pctDecode_quote (cs : List Char) (pre : List Char) :
    pctDecode ((quotePlusChars cs).map plusToSpace) (utf8EncodeList pre)
      = pre ++ cs := by
  induction cs generalizing pre with
  | nil =>
    simp [quotePlusChars, pctDecode, utf8Decode_encodeList_nil]
  | cons c t ih =>
    have ih0 : pctDecode ((t.flatMap quotePlusChar).map plusToSpace) [] = t := by
      have h := ih []
      simp only [quotePlusChars, utf8EncodeList, List.flatMap_nil,
        List.nil_append] at h
      exact h
    have ihp : ∀ pre,
        pctDecode ((t.flatMap quotePlusChar).map plusToSpace)
          (utf8EncodeList pre) = pre ++ t := by
      intro pre
      have h := ih pre
      simpa [quotePlusChars] using h
    simp only [quotePlusChars, List.flatMap_cons, List.map_append,
      quotePlusChar_map_plus]
    split_ifs with h1 h2
    · rw [List.singleton_append,
        pctDecode_literal c (safeChar_props c h1).1, ih0,
        utf8Decode_encodeList_nil]
    · subst h2
      rw [List.singleton_append, pctDecode_literal ' ' (by decide), ih0,
        utf8Decode_encodeList_nil]
    · rw [pctDecode_encodeBytes _ _ _ (utf8EncodeChar_lt c),
        show utf8EncodeList pre ++ utf8EncodeChar c
            = utf8EncodeList (pre ++ [c]) by simp [utf8EncodeList],
        ihp (pre ++ [c])]
      simp

/-- `unquote_plus` inverts `quote_plus`. -/
theorem unquote_plus_quote_plus (x : String) :
    unquote_plus (quote_plus x) = x := by
  show String.mk (pctDecode ((quotePlusChars x.toList).map plusToSpace) []) = x
  rw [show ([] : List Nat) = utf8EncodeList [] from rfl,
    pctDecode_quote x.toList []]
  rfl

/-! ### Query strings parse back after encoding -/

theorem splitOnChar_ne_nil (sep : Char) (cs : List Char) :
    splitOnChar sep cs ≠ [] := by
  induction cs with
  | nil => simp [splitOnChar]
  | cons c rest ih =>
    simp only [splitOnChar]
    cases h : splitOnChar sep rest with
    | nil => simp
    | cons a b => by_cases hc : c = sep <;> simp [hc]

theorem splitOnChar_no_sep (sep : Char) (f : List Char) (h : sep ∉ f) :
    splitOnChar sep f = [f] := by
  induction f with
  | nil => rfl
  | cons c rest ih =>
    have hc : c ≠ sep := by rintro rfl; exact h (by simp)
    have := ih (fun hx => h (by simp [hx]))
    simp only [splitOnChar, this, if_neg hc]

theorem splitOnChar_append_sep (sep : Char) (f r : List Char) (h : sep ∉ f) :
    splitOnChar sep (f ++ sep :: r) = f :: splitOnChar sep r := by
  induction f with
  | nil =>
    simp only [List.nil_append, splitOnChar]
    cases hr : splitOnChar sep r with
    | nil => exact absurd hr (splitOnChar_ne_nil sep r)
    | cons a b => simp
  | cons c rest ih =>
    have hc : c ≠ sep := by rintro rfl; exact h (by simp)
    have := ih (fun hx => h (by simp [hx]))
    simp only [List.cons_append, splitOnChar, List.append_eq, this, if_neg hc]

theorem splitOnChar_joinAmp (fields : List (List Char))
    (hne : fields ≠ []) (h : ∀ f ∈ fields, '&' ∉ f) :
    splitOnChar '&' (joinAmp fields) = fields := by
  induction fields with
  | nil => exact absurd rfl hne
  | cons f t ih =>
    cases t with
    | nil => exact splitOnChar_no_sep '&' f (h f (by simp))
    | cons f2 t2 =>
      show splitOnChar '&' (f ++ '&' :: joinAmp (f2 :: t2)) = _
      rw [splitOnChar_append_sep '&' f _ (h f (by simp)),
        ih (by simp) (fun x hx => h x (by simp [hx]))]

theorem splitEq_append (qk qv : List Char) (h : '=' ∉ qk) :
    splitEq (qk ++ '=' :: qv) = some (qk, qv) := by
  induction qk with
  | nil => simp [splitEq]
  | cons c rest ih =>
    have hc : c ≠ '=' := fun hx => h (by simp [hx])
    have hr := ih (fun hx => h (by simp [hx]))
    simp [List.cons_append, splitEq, if_neg hc, List.append_eq, hr]

theorem mapM_encoded {α β : Type} (p : β → Option α) (e : α → β)
    (l : List α) (hp : ∀ x ∈ l, p (e x) = some x) :
    (l.map e).mapM p = some l := by
  induction l with
  | nil => rfl
  | cons a t ih =>
    simp only [List.map_cons, List.mapM_cons, hp a (by simp),
      ih (fun x hx => hp x (by simp [hx])), Option.pure_def,
      Option.bind_eq_bind, Option.some_bind]

theorem dAppend_fresh (d : List (String × List String)) (k v : String)
    (h : k ∉ d.map Prod.fst) : dAppend d k v = d ++ [(k, [v])] := by
  induction d with
  | nil => rfl
  | cons kv t ih =>
    obtain ⟨k', vs⟩ := kv
    simp only [List.map_cons, List.mem_cons] at h
    push_neg at h
    rw [show dAppend ((k', vs) :: t) k v = (k', vs) :: dAppend t k v by
          simp [dAppend, Ne.symm h.1]]
    rw [ih h.2]
    simp

theorem dAppend_last (acc : List (String × List String)) (k v : String)
    (u : List String) (h : k ∉ acc.map Prod.fst) :
    dAppend (acc ++ [(k, u)]) k v = acc ++ [(k, u ++ [v])] := by
  induction acc with
  | nil => simp [dAppend]
  | cons kv t ih =>
    obtain ⟨k', vs⟩ := kv
    simp only [List.map_cons, List.mem_cons] at h
    push_neg at h
    rw [List.cons_append,
      show dAppend ((k', vs) :: (t ++ [(k, u)])) k v
          = (k', vs) :: dAppend (t ++ [(k, u)]) k v by
        simp [dAppend, Ne.symm h.1]]
    rw [ih h.2]
    simp

theorem foldl_dAppend_run (acc : List (String × List String)) (k : String)
    (u vs : List String) (h : k ∉ acc.map Prod.fst) :
    (vs.map (fun v => (k, v))).foldl (fun d p => dAppend d p.1 p.2)
        (acc ++ [(k, u)])
      = acc ++ [(k, u ++ vs)] := by
  induction vs generalizing u with
  | nil => simp
  | cons v t ih =>
    simp only [List.map_cons, List.foldl_cons]
    rw [dAppend_last acc k v u h, ih (u ++ [v])]
    simp

theorem foldl_dAppend_flatPairs (d : List (String × List String))
    (acc : List (String × List String))
    (hnd : (d.map Prod.fst).Nodup)
    (hdisj : ∀ k ∈ d.map Prod.fst, k ∉ acc.map Prod.fst)
    (hvals : ∀ kv ∈ d, kv.2 ≠ []) :
    (flatPairs d).foldl (fun x p => dAppend x p.1 p.2) acc = acc ++ d := by
  induction d generalizing acc with
  | nil => simp [flatPairs]
  | cons kv t ih =>
    obtain ⟨k, vs⟩ := kv
    have hk : k ∉ acc.map Prod.fst := hdisj k (by simp)
    cases hvs : vs with
    | nil => exact absurd hvs (hvals (k, vs) (by simp))
    | cons v vrest =>
      subst hvs
      simp only [flatPairs, List.flatMap_cons, List.map_cons,
        List.foldl_append, List.foldl_cons]
      rw [dAppend_fresh acc k v hk, foldl_dAppend_run acc k [v] vrest hk]
      simp only [List.singleton_append]
      have ht := ih (acc ++ [(k, v :: vrest)])
        (by simpa using hnd.of_cons)
        (by
          intro k2 hk2
          simp only [List.map_append, List.mem_append, List.map_cons,
            List.mem_singleton, List.map_nil]
          push_neg
          constructor
          · exact hdisj k2 (by simp [hk2])
          · intro hcon
            simp only [List.map_cons, List.nodup_cons] at hnd
            rw [hcon] at hk2
            exact absurd hk2 hnd.1)
        (fun kv2 hkv2 => hvals kv2 (by simp [hkv2]))
      simp only [flatPairs] at ht
      rw [ht]
      simp

theorem dAppend_keys (d : List (String × List String)) (k v : String) :
    (dAppend d k v).map Prod.fst
      = if k ∈ d.map Prod.fst then d.map Prod.fst
        else d.map Prod.fst ++ [k] := by
  induction d with
  | nil => simp [dAppend]
  | cons kv t ih =>
    obtain ⟨k', vs⟩ := kv
    by_cases h : k' = k
    · subst h; simp [dAppend]
    · simp only [dAppend, if_neg h, List.map_cons, ih]
      by_cases h2 : k ∈ t.map Prod.fst <;>
        simp [h2, List.mem_cons, Ne.symm h, h]

theorem dAppend_keys_nodup (d : List (String × List String)) (k v : String)
    (h : (d.map Prod.fst).Nodup) : ((dAppend d k v).map Prod.fst).Nodup := by
  rw [dAppend_keys]
  by_cases h2 : k ∈ d.map Prod.fst
  · simpa [h2] using h
  · rw [if_neg h2, ← List.concat_eq_append]
    exact h.concat h2

theorem dAppend_vals (d : List (String × List String)) (k v : String)
    (h : ∀ kv ∈ d, kv.2 ≠ []) : ∀ kv ∈ dAppend d k v, kv.2 ≠ [] := by
  induction d with
  | nil => simp [dAppend]
  | cons kv' t ih =>
    obtain ⟨k', vs⟩ := kv'
    by_cases h2 : k' = k
    · subst h2
      simp only [dAppend, if_pos rfl]
      intro kv hkv
      rcases List.mem_cons.mp hkv with rfl | hm
      · simp
      · exact h kv (by simp [hm])
    · simp only [dAppend, if_neg h2]
      intro kv hkv
      rcases List.mem_cons.mp hkv with rfl | hm
      · exact h (k', vs) (by simp)
      · exact ih (fun x hx => h x (by simp [hx])) kv hm

theorem dAppend_ne_nil (d : List (String × List String)) (k v : String) :
    dAppend d k v ≠ [] := by
  cases d with
  | nil => simp [dAppend]
  | cons kv t =>
    obtain ⟨k', vs⟩ := kv
    by_cases h : k' = k <;> simp [dAppend, h]

theorem foldl_dAppend_ne_nil (ps : List (String × String))
    (acc : List (String × List String)) (h : acc ≠ []) :
    ps.foldl (fun d p => dAppend d p.1 p.2) acc ≠ [] := by
  induction ps generalizing acc with
  | nil => exact h
  | cons p t ih =>
    simp only [List.foldl_cons]
    exact ih _ (dAppend_ne_nil acc p.1 p.2)

theorem groupPairs_props (ps : List (String × String))
    (acc : List (String × List String))
    (hnd : (acc.map Prod.fst).Nodup) (hvals : ∀ kv ∈ acc, kv.2 ≠ []) :
    ((ps.foldl (fun d p => dAppend d p.1 p.2) acc).map Prod.fst).Nodup
    ∧ (∀ kv ∈ ps.foldl (fun d p => dAppend d p.1 p.2) acc, kv.2 ≠ [])
    ∧ (ps ≠ [] → ps.foldl (fun d p => dAppend d p.1 p.2) acc ≠ []) := by
  induction ps generalizing acc with
  | nil => exact ⟨hnd, hvals, fun h => absurd rfl h⟩
  | cons p t ih =>
    have h1 := dAppend_keys_nodup acc p.1 p.2 hnd
    have h2 := dAppend_vals acc p.1 p.2 hvals
    obtain ⟨g1, g2, _⟩ := ih (dAppend acc p.1 p.2) h1 h2
    refine ⟨g1, g2, fun _ => ?_⟩
    simp only [List.foldl_cons]
    exact foldl_dAppend_ne_nil t _ (dAppend_ne_nil acc p.1 p.2)

theorem mapM_some_length {α β : Type} (p : α → Option β) (l : List α)
    (r : List β) (h : l.mapM p = some r) : r.length = l.length := by
  induction l generalizing r with
  | nil =>
    simp only [List.mapM, List.mapM.loop] at h
    cases h
    rfl
  | cons a t ih =>
    simp only [List.mapM_cons, Option.pure_def, Option.bind_eq_bind,
      Option.bind_eq_some] at h
    obtain ⟨b, hpa, r', hr', hb⟩ := h
    cases hb
    simp [ih r' hr']

/-- Invariants of a successful `parse_qs`: keys are unique, every key has at
least one value, and the mapping is non-empty. -/
theorem parse_qs_props (s : String) (d : List (String × List String))
    (h : parse_qs s = some d) :
    (d.map Prod.fst).Nodup ∧ (∀ kv ∈ d, kv.2 ≠ []) ∧ d ≠ [] := by
  simp only [parse_qs, Option.map_eq_some'] at h
  obtain ⟨ps, hps, hd⟩ := h
  have hlen := mapM_some_length _ _ _ hps
  have hfne := splitOnChar_ne_nil '&' s.toList
  have hpne : ps ≠ [] := by
    intro hcon
    rw [hcon] at hlen
    exact hfne (List.length_eq_zero.mp hlen.symm)
  obtain ⟨g1, g2, g3⟩ := groupPairs_props ps [] (by simp) (by simp)
  exact ⟨hd ▸ g1, hd ▸ g2, hd ▸ g3 hpne⟩

theorem urlencodeValue_qs (k : String) (vs : List String) :
    urlencodeValue k (.list (vs.map .str))
      = vs.map fun v => urlencodePairChars k v := by
  simp [urlencodeValue, List.map_map]

theorem urlencode_qsToPDict (d2 : List (String × List String)) :
    (urlencode (qsToPDict d2)).toList
      = joinAmp ((flatPairs d2).map fun p => urlencodePairChars p.1 p.2) := by
  show joinAmp ((qsToPDict d2).flatMap fun kv => urlencodeValue kv.1 kv.2) = _
  congr 1
  induction d2 with
  | nil => rfl
  | cons kv t ih =>
    obtain ⟨k, vs⟩ := kv
    simp only [qsToPDict, List.map_cons, List.flatMap_cons, flatPairs,
      List.map_append, List.map_map, urlencodeValue_qs] at ih ⊢
    rw [ih]
    rfl

/-- Re-encoding a grouped query mapping with `urlencode(..., doseq=True)` and
parsing it again restores the mapping exactly, multi-value keys included. -/
theorem parse_urlencode (d2 : List (String × List String))
    (hnd : (d2.map Prod.fst).Nodup) (hvals : ∀ kv ∈ d2, kv.2 ≠ [])
    (hne : d2 ≠ []) :
    parse_qs (urlencode (qsToPDict d2)) = some d2 := by
  have hfne : (flatPairs d2).map (fun p => urlencodePairChars p.1 p.2)
      ≠ [] := by
    cases d2 with
    | nil => exact absurd rfl hne
    | cons kv t =>
      obtain ⟨k, vs⟩ := kv
      cases hvs : vs with
      | nil => exact absurd hvs (hvals (k, vs) (by simp))
      | cons v r => simp [flatPairs, hvs]
  have hnoamp : ∀ f ∈ (flatPairs d2).map
      (fun p => urlencodePairChars p.1 p.2), '&' ∉ f := by
    intro f hf
    simp only [List.mem_map] at hf
    obtain ⟨p, hp, rfl⟩ := hf
    intro hmem
    simp only [urlencodePairChars, List.mem_append, List.mem_cons] at hmem
    rcases hmem with h | h | h
    · simp only [quotePlusChars, List.mem_flatMap] at h
      obtain ⟨c, _, hc⟩ := h
      exact (quotePlusChar_props c '&' hc).1 rfl
    · exact absurd h (by decide)
    · simp only [quotePlusChars, List.mem_flatMap] at h
      obtain ⟨c, _, hc⟩ := h
      exact (quotePlusChar_props c '&' hc).1 rfl
  have hp : ∀ x ∈ flatPairs d2,
      ((splitEq (urlencodePairChars x.1 x.2)).map fun q =>
        (unquote_plus (String.mk q.1), unquote_plus (String.mk q.2)))
        = some x := by
    intro x hx
    have hkeq : '=' ∉ quotePlusChars x.1.toList := by
      intro hmem
      simp only [quotePlusChars, List.mem_flatMap] at hmem
      obtain ⟨c, _, hc⟩ := hmem
      exact (quotePlusChar_props c '=' hc).2 rfl
    rw [show urlencodePairChars x.1 x.2
          = quotePlusChars x.1.toList ++ '=' :: quotePlusChars x.2.toList
        from rfl,
      splitEq_append _ _ hkeq]
    show some (unquote_plus (quote_plus x.1), unquote_plus (quote_plus x.2))
        = some x
    rw [unquote_plus_quote_plus, unquote_plus_quote_plus]
  simp only [parse_qs, parse_qsl]
  rw [show (urlencode (qsToPDict d2)).toList
        = joinAmp ((flatPairs d2).map fun p => urlencodePairChars p.1 p.2)
      from urlencode_qsToPDict d2,
    splitOnChar_joinAmp _ hfne hnoamp,
    mapM_encoded
      (fun f => (splitEq f).map fun q =>
        (unquote_plus (String.mk q.1), unquote_plus (String.mk q.2)))
      (fun p => urlencodePairChars p.1 p.2) (flatPairs d2) hp]
  show some ((flatPairs d2).foldl (fun x p => dAppend x p.1 p.2) []) = some d2
  rw [foldl_dAppend_flatPairs d2 [] hnd (by simp) hvals]
  simp

/-- `chain_mask` on a leaf that is not `None` is the mask string. -/
theorem chain_mask_leaf (sn : Bool) (v : PyVal) (hd : isMapping v = false)
    (hs : isSequence v = false) (hn : v ≠ .none) :
    chain_mask sn v = .str MASK_STRING := by
  cases v <;> simp_all [isMapping, isSequence, chain_mask]

/-- `_sanitize_any` never changes a value that is neither dict nor list. -/
theorem sanitizeAnyF_leaf (sn : Bool) (paths : RuleDict) (g : Nat) (v : PyVal)
    (hd : isMapping v = false) (hs : isSequence v = false) :
    sanitizeAnyF sn paths g v = v := by
  cases v <;> simp_all [isMapping, isSequence, sanitizeAnyF]


/-! ### Masking preserves the query-string shape (without a top-level
terminal wildcard) -/

theorem sanitizeListItemsF_str (sn : Bool) (paths : RuleDict) (g : Nat)
    (vs : List String) :
    sanitizeListItemsF sn paths g (vs.map .str) = vs.map .str := by
  induction vs with
  | nil => simp [sanitizeListItemsF]
  | cons v t ih =>
    simp only [List.map_cons, sanitizeListItemsF, ih,
      sanitizeAnyF_leaf sn paths g (.str v) rfl rfl]

theorem sanitizeAnyF_str_list (sn : Bool) (paths : RuleDict) (g : Nat)
    (vs : List String) :
    sanitizeAnyF sn paths g (.list (vs.map .str)) = .list (vs.map .str) := by
  simp [sanitizeAnyF, sanitizeListItemsF_str]

theorem chain_mask_list_str (sn : Bool) (vs : List String) :
    chain_mask_list sn (vs.map .str)
      = (vs.map fun _ => MASK_STRING).map .str := by
  induction vs with
  | nil => simp [chain_mask_list]
  | cons v t ih => simp [chain_mask_list, chain_mask, ih]

theorem sanitizeWildValuesF_qs (sn : Bool) (sub : RuleDict) (g : Nat)
    (d : List (String × List String)) :
    sanitizeWildValuesF sn sub g (qsToPDict d) = qsToPDict d := by
  induction d with
  | nil => simp [qsToPDict, sanitizeWildValuesF]
  | cons kv t ih =>
    obtain ⟨k, vs⟩ := kv
    simp only [qsToPDict, List.map_cons, sanitizeWildValuesF,
      sanitizeAnyF_str_list] at ih ⊢
    rw [ih]

theorem sanitizeItemsF_qs (sn : Bool) (paths : RuleDict) (g : Nat)
    (d : List (String × List String)) :
    ∃ d', sanitizeItemsF sn paths g (qsToPDict d) = qsToPDict d'
      ∧ d'.map Prod.fst = d.map Prod.fst
      ∧ d'.map (fun kv => kv.2.length) = d.map fun kv => kv.2.length := by
  induction d with
  | nil => exact ⟨[], by simp [qsToPDict, sanitizeItemsF], rfl, rfl⟩
  | cons kv t ih =>
    obtain ⟨k, vs⟩ := kv
    obtain ⟨t', ht, hk, hl⟩ := ih
    simp only [qsToPDict, List.map_cons, sanitizeItemsF] at ht ⊢
    cases hpk : dLookup paths k with
    | none =>
      exact ⟨(k, vs) :: t', by simp [qsToPDict, hpk, ht], by simp [hk],
        by simp [hl]⟩
    | some r =>
      cases r with
      | leaf =>
        refine ⟨(k, vs.map fun _ => MASK_STRING) :: t', ?_, by simp [hk],
          by simp [hl]⟩
        simp [qsToPDict, hpk, ht, chain_mask, chain_mask_list_str]
      | node sub =>
        exact ⟨(k, vs) :: t',
          by simp [qsToPDict, hpk, ht, sanitizeAnyF_str_list],
          by simp [hk], by simp [hl]⟩

/-- One `process` pass keeps a parsed query mapping in query shape — same
keys, same per-key value counts — provided the rule set has no top-level
terminal wildcard. -/
theorem process_qs_shape (enable sn : Bool) (paths : RuleDict)
    (hw : dLookup paths "*" ≠ some Rule.leaf)
    (d : List (String × List String)) :
    ∃ d', process enable sn paths (qsToPDict d) = qsToPDict d'
      ∧ d'.map Prod.fst = d.map Prod.fst
      ∧ d'.map (fun kv => kv.2.length) = d.map fun kv => kv.2.length := by
  by_cases he : enable
  · subst he
    have hproc : process true sn paths (qsToPDict d)
        = sanitizeItemsF sn paths (pyDepthEntries (qsToPDict d))
            (match dLookup paths "*" with
             | some .leaf =>
               if sn then maskValues (qsToPDict d)
               else [(MASK_STRING, PyVal.str MASK_STRING)]
             | some (.node sub) =>
               sanitizeWildValuesF sn sub (pyDepthEntries (qsToPDict d))
                 (qsToPDict d)
             | Option.none => qsToPDict d) := by
      simp [process, sanitize_dict, sanitizeDictF]
    cases hpw : dLookup paths "*" with
    | none =>
      rw [hproc, hpw]
      exact sanitizeItemsF_qs sn paths _ d
    | some r =>
      cases r with
      | leaf => exact absurd hpw hw
      | node sub =>
        rw [hproc, hpw]
        rw [show (match (some (Rule.node sub) : Option Rule) with
             | some .leaf =>
               if sn then maskValues (qsToPDict d)
               else [(MASK_STRING, PyVal.str MASK_STRING)]
             | some (.node sub) =>
               sanitizeWildValuesF sn sub (pyDepthEntries (qsToPDict d))
                 (qsToPDict d)
             | Option.none => qsToPDict d)
            = sanitizeWildValuesF sn sub (pyDepthEntries (qsToPDict d))
                (qsToPDict d) from rfl,
          sanitizeWildValuesF_qs]
        exact sanitizeItemsF_qs sn paths _ d
  · refine ⟨d, ?_, rfl, rfl⟩
    simp [process, he]

/-- Folding the named processors over a parsed query mapping keeps it in
query shape, provided no applied rule set has a top-level terminal
wildcard. -/
theorem foldProcess_qs_shape (names : List String) (reg : Registry)
    (enable sn : Bool)
    (hw : ∀ n ∈ names, ∀ paths, dLookup reg.mask_processors n = some paths
      → dLookup paths "*" ≠ some Rule.leaf)
    (d : List (String × List String)) :
    ∃ d', names.foldl (fun x n => processNamed reg enable sn n x)
          (qsToPDict d) = qsToPDict d'
      ∧ d'.map Prod.fst = d.map Prod.fst
      ∧ d'.map (fun kv => kv.2.length) = d.map fun kv => kv.2.length := by
  induction names generalizing d with
  | nil => exact ⟨d, by simp, rfl, rfl⟩
  | cons n t ih =>
    have hstep : ∃ d1, processNamed reg enable sn n (qsToPDict d)
        = qsToPDict d1
        ∧ d1.map Prod.fst = d.map Prod.fst
        ∧ d1.map (fun kv => kv.2.length) = d.map fun kv => kv.2.length := by
      cases hl : dLookup reg.mask_processors n with
      | none => exact ⟨d, by simp [processNamed, hl], rfl, rfl⟩
      | some paths =>
        obtain ⟨d1, h1, h2, h3⟩ := process_qs_shape enable sn paths
          (hw n (by simp) paths hl) d
        exact ⟨d1, by simp [processNamed, hl, h1], h2, h3⟩
    obtain ⟨d1, h1, h2, h3⟩ := hstep
    obtain ⟨d', g1, g2, g3⟩ := ih (fun m hm => hw m (by simp [hm]))  d1
    exact ⟨d', by simp only [List.foldl_cons, h1, g1], by rw [g2, h2],
      by rw [g3, h3]⟩

theorem qs_vals_transfer (d2 d : List (String × List String))
    (hlen : d2.map (fun kv => kv.2.length) = d.map fun kv => kv.2.length)
    (h : ∀ kv ∈ d, kv.2 ≠ []) : ∀ kv ∈ d2, kv.2 ≠ [] := by
  induction d2 generalizing d with
  | nil => simp
  | cons kv t ih =>
    cases d with
    | nil => simp at hlen
    | cons e r =>
      simp only [List.map_cons, List.cons.injEq] at hlen
      intro kv2 hkv2
      rcases List.mem_cons.mp hkv2 with rfl | hm
      · intro hcon
        have he := h e (by simp)
        rw [hcon] at hlen
        simp only [List.length_nil] at hlen
        exact he (List.length_eq_zero.mp hlen.1.symm)
      · exact ih r hlen.2 (fun x hx => h x (by simp [hx])) kv2 hm

/-! ### Lemmas about the wildcard-only (`ALL`) rule set -/

theorem compileRules_star : compileRules ["*"] = [("*", Rule.leaf)] := rfl

/-- The per-key items pass leaves the show-nested-keys wildcard result alone:
every value is already the mask string, and the only configured key is `"*"`,
whose chain mask of a mask string is itself. -/
theorem sanitizeItemsF_star_maskValues (g : Nat) (es : PDict) :
    sanitizeItemsF true [("*", Rule.leaf)] g (maskValues es) = maskValues es := by
  induction es with
  | nil => simp [maskValues, sanitizeItemsF]
  | cons hd t ih =>
    obtain ⟨k, v⟩ := hd
    by_cases h : "*" = k <;>
      simp [maskValues, sanitizeItemsF, dLookup, h, chain_mask] at ih ⊢ <;>
      exact ih

/-- Lookup through the per-key items pass. -/
theorem dLookup_sanitizeItemsF (sn : Bool) (paths : RuleDict) (g : Nat)
    (es : PDict) (k : String) :
    dLookup (sanitizeItemsF sn paths g es) k
      = (dLookup es k).map (fun v =>
          match dLookup paths k with
          | Option.none => v
          | some .leaf => chain_mask sn v
          | some (.node sub) => sanitizeAnyF sn sub g v) := by
  induction es with
  | nil => simp [sanitizeItemsF, dLookup]
  | cons hd t ih =>
    obtain ⟨k', v⟩ := hd
    by_cases h : k' = k
    · subst h
      cases hpk : dLookup paths k' with
      | none => simp [sanitizeItemsF, dLookup, hpk]
      | some r => cases r <;> simp [sanitizeItemsF, dLookup, hpk]
    · cases hpk : dLookup paths k' with
      | none => simp [sanitizeItemsF, dLookup, h, hpk, ih]
      | some r => cases r <;> simp [sanitizeItemsF, dLookup, h, hpk, ih]

/-- Lookup through the wildcard values pass. -/
theorem dLookup_sanitizeWildValuesF (sn : Bool) (sub : RuleDict) (g : Nat)
    (es : PDict) (k : String) :
    dLookup (sanitizeWildValuesF sn sub g es) k
      = (dLookup es k).map (sanitizeAnyF sn sub g) := by
  induction es with
  | nil => simp [sanitizeWildValuesF, dLookup]
  | cons hd t ih =>
    obtain ⟨k', v⟩ := hd
    by_cases h : k' = k <;> simp [sanitizeWildValuesF, dLookup, h, ih]

/-- Lookup through `maskValues`. -/
theorem dLookup_maskValues (es : PDict) (k : String) :
    dLookup (maskValues es) k
      = (dLookup es k).map (fun _ => .str MASK_STRING) := by
  induction es with
  | nil => simp [maskValues, dLookup]
  | cons hd t ih =>
    obtain ⟨k', v⟩ := hd
    by_cases h : k' = k
    · simp [maskValues, dLookup, h]
    · simpa [maskValues, dLookup, h] using ih

/-! ### Deep copies and the sanitize entry point -/

mutual

theorem deepcopy_eq : ∀ v : PyVal, deepcopy v = v
  | .none => rfl
  | .bool _ => rfl
  | .int _ => rfl
  | .str _ => rfl
  | .list xs => by rw [deepcopy, deepcopyList_eq xs]
  | .dict es => by rw [deepcopy, deepcopyEntries_eq es]

theorem deepcopyList_eq : ∀ xs : List PyVal, deepcopyList xs = xs
  | [] => rfl
  | x :: t => by rw [deepcopyList, deepcopy_eq x, deepcopyList_eq t]

theorem deepcopyEntries_eq :
    ∀ es : List (String × PyVal), deepcopyEntries es = es
  | [] => rfl
  | (k, v) :: t => by rw [deepcopyEntries, deepcopy_eq v, deepcopyEntries_eq t]

end

/-- Membership in the name set `sanitize_data` unions together. -/
theorem sanitizeNames_mem (maskNames : List String) (st : ContextStack)
    (reg : Registry) (n : String) :
    n ∈ sanitizeNames maskNames st reg
      ↔ (n ∈ maskNames ∨ n ∈ get_mask_names st ∨ n ∈ reg.global_masks) := by
  simp [sanitizeNames, List.mem_dedup, List.mem_append]

/-- When every name in a list is registered, the `sanitize_data` loop is the
pure fold of the named processors. -/
theorem foldProcessors_ok (reg : Registry) (enable sn : Bool)
    (names : List String) (d : PDict)
    (hreg : ∀ n ∈ names, (dLookup reg.mask_processors n).isSome = true) :
    (names.foldlM
        (fun d n =>
          match dLookup reg.mask_processors n with
          | some paths => Except.ok (process enable sn paths d)
          | Option.none => Except.error n)
        d : Except String PDict)
      = Except.ok (names.foldl (fun d n => processNamed reg enable sn n d) d) := by
  induction names generalizing d with
  | nil => rfl
  | cons n t ih =>
    have hn := hreg n (by simp)
    cases hl : dLookup reg.mask_processors n with
    | none => rw [hl] at hn; simp at hn
    | some paths =>
      simp only [List.foldlM_cons, List.foldl_cons, hl]
      rw [show processNamed reg enable sn n d = process enable sn paths d by
            simp [processNamed, hl]]
      exact ih _ (fun m hm => hreg m (by simp [hm]))

/-- When some name in the list is unregistered, the `sanitize_data` loop
raises `KeyError` on the first such name. -/
theorem foldProcessors_error (reg : Registry) (enable sn : Bool)
    (names : List String) (d : PDict)
    (hmiss : ∃ n ∈ names, dLookup reg.mask_processors n = Option.none) :
    ∃ m ∈ names, dLookup reg.mask_processors m = Option.none
      ∧ (names.foldlM
          (fun d n =>
            match dLookup reg.mask_processors n with
            | some paths => Except.ok (process enable sn paths d)
            | Option.none => Except.error n)
          d : Except String PDict)
        = Except.error m := by
  induction names generalizing d with
  | nil => simp at hmiss
  | cons n t ih =>
    cases hl : dLookup reg.mask_processors n with
    | none =>
      refine ⟨n, by simp, hl, ?_⟩
      simp only [List.foldlM_cons, hl]
      rfl
    | some paths =>
      obtain ⟨m, hm, hmet⟩ := hmiss
      rcases List.mem_cons.mp hm with rfl | hmt
      · rw [hl] at hmet; simp at hmet
      · obtain ⟨m', hm', hmet', heq⟩ :=
          ih (process enable sn paths d) ⟨m, hmt, hmet⟩
        refine ⟨m', by simp [hm'], hmet', ?_⟩
        simp only [List.foldlM_cons, hl]
        exact heq

/-! ### Prefix collapsing of the rule compiler -/

theorem effSegs_ne_nil (l : List String) (h : l ≠ []) : effSegs l ≠ [] := by
  match l with
  | [k] => simp [effSegs]
  | k :: k2 :: rest => by_cases h2 : k2 :: rest = ["*"] <;> simp [effSegs, h2]

theorem chainSegs_cons (k : String) (m : List String) (h : m ≠ []) :
    chainSegs (k :: m) = [(k, Rule.node (chainSegs m))] := by
  cases m with
  | nil => exact absurd rfl h
  | cons a b => rfl

theorem splitOnSlash_ne_nil (cs : List Char) : splitOnSlash cs ≠ [] := by
  induction cs with
  | nil => simp [splitOnSlash]
  | cons c rest ih =>
    simp only [splitOnSlash]
    cases h : splitOnSlash rest with
    | nil => simp
    | cons a b => by_cases hc : c = '/' <;> simp [hc]

theorem splitPath_ne_nil (p : String) : splitPath p ≠ [] := by
  simp [splitPath, splitOnSlash_ne_nil]

/-- Compiling a single pattern into the empty trie yields the single-branch
trie of its effective segments. -/
theorem insertSegs_nil_eq (l : List String) :
    insertSegs [] l = chainSegs (effSegs l) := by
  induction l with
  | nil => rfl
  | cons k t ih =>
    cases t with
    | nil => rfl
    | cons k2 rest =>
      by_cases h : k2 :: rest = ["*"]
      · rw [h]; rfl
      · have hne := effSegs_ne_nil (k2 :: rest) (by simp)
        simp only [insertSegs, if_neg h, dLookup, dInsert, ih, effSegs,
          chainSegs_cons k _ hne]

/-- Inserting a longer pattern into the trie of one of its segment prefixes
leaves the trie unchanged: the walk hits the existing terminal `True`. -/
theorem insertSegs_longer (s t : List String) (hs : s ≠ []) (hp : s <+: t) :
    insertSegs (chainSegs (effSegs s)) t = chainSegs (effSegs s) := by
  induction s generalizing t with
  | nil => exact absurd rfl hs
  | cons k s' ih =>
    obtain ⟨r, rfl⟩ := hp
    simp only [List.cons_append]
    cases s' with
    | nil =>
      simp only [List.nil_append]
      cases r with
      | nil => simp [effSegs, chainSegs, insertSegs, dInsert]
      | cons a b =>
        by_cases hb : a :: b = ["*"]
        · simp [effSegs, chainSegs, insertSegs, hb, dInsert]
        · simp [effSegs, chainSegs, insertSegs, hb, dLookup]
    | cons k2 s'' =>
      simp only [List.cons_append]
      by_cases hstar : k2 :: s'' = ["*"]
      · have h1 : k2 = "*" := by injection hstar
        have h2 : s'' = [] := by injection hstar with _ h
        subst h1; subst h2
        simp only [List.nil_append]
        cases r with
        | nil => simp [effSegs, chainSegs, insertSegs, dInsert]
        | cons a b =>
          have hne : ("*" : String) :: a :: b ≠ ["*"] := by simp
          simp [effSegs, chainSegs, insertSegs, hne, dLookup]
      · have hne2 := effSegs_ne_nil (k2 :: s'') (by simp)
        have htne : k2 :: (s'' ++ r) ≠ ["*"] := by
          intro hcon
          apply hstar
          have h1 : k2 = "*" := by injection hcon
          have h2 : s'' ++ r = [] := by injection hcon with _ h
          rw [h1, List.append_eq_nil.mp h2 |>.1]
        have hch : effSegs (k :: k2 :: s'') = k :: effSegs (k2 :: s'') := by
          simp [effSegs, hstar]
        rw [hch, chainSegs_cons k _ hne2]
        show insertSegs [(k, Rule.node (chainSegs (effSegs (k2 :: s''))))]
            (k :: k2 :: (s'' ++ r)) = _
        simp only [insertSegs, if_neg htne, dLookup, if_pos rfl, if_true]
        rw [ih (k2 :: (s'' ++ r)) (by simp) ⟨r, by simp⟩]
        simp [dInsert]

/-- The head entry of a single-branch trie carries the pattern's first
segment. -/
theorem chainSegs_effSegs_head (k : String) (t : List String) :
    ∃ r, chainSegs (effSegs (k :: t)) = [(k, r)] := by
  cases t with
  | nil => exact ⟨Rule.leaf, rfl⟩
  | cons a b =>
    by_cases h : a :: b = ["*"]
    · exact ⟨Rule.leaf, by simp [effSegs, h, chainSegs]⟩
    · refine ⟨Rule.node (chainSegs (effSegs (a :: b))), ?_⟩
      rw [show effSegs (k :: a :: b) = k :: effSegs (a :: b) by
            simp [effSegs, h],
          chainSegs_cons k _ (effSegs_ne_nil _ (by simp))]

/-- Inserting a pattern into the trie of a longer pattern it prefixes
truncates the trie to the shorter pattern's terminal `True`. -/
theorem insertSegs_shorter (s t : List String) (hs : s ≠ []) (hp : s <+: t) :
    insertSegs (chainSegs (effSegs t)) s = chainSegs (effSegs s) := by
  induction s generalizing t with
  | nil => exact absurd rfl hs
  | cons k s' ih =>
    obtain ⟨r, rfl⟩ := hp
    simp only [List.cons_append]
    cases s' with
    | nil =>
      simp only [List.nil_append]
      obtain ⟨x, hx⟩ := chainSegs_effSegs_head k r
      rw [hx]
      simp [insertSegs, dInsert, effSegs, chainSegs]
    | cons k2 s'' =>
      simp only [List.cons_append]
      by_cases hstar : k2 :: s'' = ["*"]
      · obtain ⟨x, hx⟩ := chainSegs_effSegs_head k (k2 :: (s'' ++ r))
        rw [hx]
        have h1 : k2 = "*" := by injection hstar
        have h2 : s'' = [] := by injection hstar with _ h
        subst h1; subst h2
        simp [insertSegs, dInsert, effSegs, chainSegs]
      · have hne2 := effSegs_ne_nil (k2 :: s'') (by simp)
        have htne : k2 :: (s'' ++ r) ≠ ["*"] := by
          intro hcon
          apply hstar
          have h1 : k2 = "*" := by injection hcon
          have h2 : s'' ++ r = [] := by injection hcon with _ h
          rw [h1, List.append_eq_nil.mp h2 |>.1]
        have hch : effSegs (k :: k2 :: (s'' ++ r))
            = k :: effSegs (k2 :: (s'' ++ r)) := by
          simp [effSegs, htne]
        have hne3 : effSegs (k2 :: (s'' ++ r)) ≠ [] :=
          effSegs_ne_nil _ (by simp)
        rw [hch, chainSegs_cons k _ hne3]
        show insertSegs
            [(k, Rule.node (chainSegs (effSegs (k2 :: (s'' ++ r)))))]
            (k :: k2 :: s'') = _
        simp only [insertSegs, if_neg hstar, dLookup, if_pos rfl, if_true]
        rw [ih (k2 :: (s'' ++ r)) (by simp) ⟨r, by simp⟩]
        rw [show effSegs (k :: k2 :: s'') = k :: effSegs (k2 :: s'') by
              simp [effSegs, hstar],
            chainSegs_cons k _ hne2]
        simp [dInsert]

theorem lookupPath_chainSegs (l : List String) (h : l ≠ []) :
    lookupPath (chainSegs l) l = some Rule.leaf := by
  induction l with
  | nil => exact absurd rfl h
  | cons k t ih =>
    cases t with
    | nil => simp [chainSegs, lookupPath, dLookup]
    | cons a b =>
      rw [chainSegs_cons k _ (by simp)]
      simp [lookupPath, dLookup, ih (by simp)]

/-! ### Claim theorems -/

/-- C3: with the sensitive-paths processor enabled, the rule set compiled
from the single pattern `"*"` (the built-in `ALL` rule) collapses any mapping
to `\x7b"*** masked ***": "*** masked ***"\x7d` when show-nested-keys is off,
and with it on keeps every top-level key while replacing every value
(nested mappings included) with the mask string; in particular
`\x7b"obj2": "shown", "obj1": \x7b"key1": "secret"\x7d\x7d` becomes
`\x7b"*** masked ***": "*** masked ***"\x7d` resp.
`\x7b"obj2": "*** masked ***", "obj1": "*** masked ***"\x7d`. -/
theorem C3_all_rule (es : PDict) :
    process true false (compileRules ["*"]) es
        = [(MASK_STRING, PyVal.str MASK_STRING)]
    ∧ process true true (compileRules ["*"]) es
        = es.map (fun kv => (kv.1, PyVal.str MASK_STRING))
    ∧ process true false (compileRules ["*"])
          [("obj2", PyVal.str "shown"),
           ("obj1", PyVal.dict [("key1", PyVal.str "secret")])]
        = [(MASK_STRING, PyVal.str MASK_STRING)]
    ∧ process true true (compileRules ["*"])
          [("obj2", PyVal.str "shown"),
           ("obj1", PyVal.dict [("key1", PyVal.str "secret")])]
        = [("obj2", PyVal.str MASK_STRING), ("obj1", PyVal.str MASK_STRING)] := by
  refine ⟨?_, ?_, ?_, ?_⟩
  · simp [process, sanitize_dict, compileRules_star, sanitizeDictF,
          sanitizeItemsF, dLookup, MASK_STRING]
  · have h := sanitizeItemsF_star_maskValues (pyDepthEntries es) es
    simp [process, sanitize_dict, compileRules_star, sanitizeDictF, dLookup,
          maskValues] at h ⊢
    exact h
  · simp [process, sanitize_dict, compileRules_star, sanitizeDictF,
          sanitizeItemsF, dLookup, MASK_STRING, pyDepthEntries, pyDepth]
  · simp [process, sanitize_dict, compileRules_star, sanitizeDictF,
          sanitizeItemsF, dLookup, MASK_STRING, pyDepthEntries, pyDepth,
          maskValues]

/-- C1: `sanitize_data` works on a deep copy that is structurally equal to
the caller's data (the original value is untouched — the model is pure, and
the copy fed to the processors is `deepcopy data`, provably equal to `data`),
and, when every selected name is registered, returns the fold that applies
each named rule set over the union of the explicit names, the context stack's
active names and the registry's global names. -/
theorem C1_sanitize_data (reg : Registry) (st : ContextStack)
    (enable sn : Bool) (data : PDict) (maskNames : List String)
    (hreg : ∀ n ∈ sanitizeNames maskNames st reg,
      (dLookup reg.mask_processors n).isSome = true) :
    sanitize_data reg st enable sn data maskNames
      = Except.ok ((sanitizeNames maskNames st reg).foldl
          (fun d n => processNamed reg enable sn n d) (deepcopyEntries data))
    ∧ deepcopyEntries data = data
    ∧ (∀ n, n ∈ sanitizeNames maskNames st reg
        ↔ (n ∈ maskNames ∨ n ∈ get_mask_names st ∨ n ∈ reg.global_masks)) :=
  ⟨foldProcessors_ok reg enable sn _ _ hreg, deepcopyEntries_eq data,
   fun n => sanitizeNames_mem maskNames st reg n⟩

/-- Closed instance of `C1_sanitize_data`: the pre-registered `ALL` rule
applied explicitly on the initial registry. -/
theorem C1_sanitize_data_witness :
    sanitize_data initialRegistry [] true false [("a", PyVal.str "x")] ["ALL"]
      = Except.ok ((sanitizeNames ["ALL"] [] initialRegistry).foldl
          (fun d n => processNamed initialRegistry true false n d)
          (deepcopyEntries [("a", PyVal.str "x")])) :=
  (C1_sanitize_data initialRegistry [] true false [("a", PyVal.str "x")]
      ["ALL"]
      (by
        intro n hn
        simp [sanitizeNames, get_mask_names, initialRegistry,
          add_mask_processor, dInsert] at hn
        simp [hn, initialRegistry, add_mask_processor, dInsert, dLookup])).1

/-- C10: if any name in the union of explicit, context and global names is
missing from `_mask_processors`, `sanitize_data` raises `KeyError` (an
`Except.error` carrying an unregistered name) instead of skipping it; in
particular an unregistered name supplied through a request's
`_apply_mask_processors` attribute makes `sanitize_request_data` fail. -/
theorem C10_unregistered_name_raises (reg : Registry) (st : ContextStack)
    (enable sn : Bool) (data : PDict) (maskNames : List String) (n : String)
    (hmem : n ∈ maskNames ∨ n ∈ get_mask_names st ∨ n ∈ reg.global_masks)
    (hmiss : dLookup reg.mask_processors n = Option.none) :
    (∃ m, dLookup reg.mask_processors m = Option.none
      ∧ sanitize_data reg st enable sn data maskNames = Except.error m)
    ∧ (∀ reqNames, n ∈ reqNames
        → ∃ m, dLookup reg.mask_processors m = Option.none
          ∧ sanitize_request_data_dict reg st enable sn reqNames data
            = Except.error m) := by
  constructor
  · obtain ⟨m, _, hmet, heq⟩ := foldProcessors_error reg enable sn
      (sanitizeNames maskNames st reg) (deepcopyEntries data)
      ⟨n, (sanitizeNames_mem maskNames st reg n).mpr hmem, hmiss⟩
    exact ⟨m, hmet, heq⟩
  · intro reqNames hn
    have hmem2 : n ∈ get_mask_names (pushScope st reqNames) := by
      simp [get_mask_names, pushScope]
      rcases hmem with h | h | h
      · exact Or.inr hn
      · simp [get_mask_names] at h
        exact Or.inl h
      · exact Or.inr hn
    obtain ⟨m, _, hmet, heq⟩ := foldProcessors_error reg enable sn
      (sanitizeNames [] (pushScope st reqNames) reg) (deepcopyEntries data)
      ⟨n, (sanitizeNames_mem [] _ reg n).mpr (Or.inr (Or.inl hmem2)), hmiss⟩
    exact ⟨m, hmet, heq⟩

/-- Closed instance of `C10_unregistered_name_raises`: the name `"Nope"` is
requested on the initial registry, where it is not registered. -/
theorem C10_unregistered_name_raises_witness :
    ∃ m, dLookup initialRegistry.mask_processors m = Option.none
      ∧ sanitize_data initialRegistry [["Nope"]] true false
          [("a", PyVal.str "x")] [] = Except.error m :=
  (C10_unregistered_name_raises initialRegistry [["Nope"]] true false
      [("a", PyVal.str "x")] [] "Nope"
      (Or.inr (Or.inl (by simp [get_mask_names])))
      (by simp [initialRegistry, add_mask_processor, dInsert, dLookup])).1

/-- C6 counterexample: with the pre-registered `ALL` rule selected through a
request's `_apply_mask_processors` (show-nested-keys off), the query string
`"a=1&a=2"` parses with key set `\x7b"a"\x7d`, but its sanitized re-encoding
parses with the single key `"*** masked ***"` — the key set is not preserved
and the two-valued key `"a"` is gone, so the claim fails as stated. -/
theorem C6_counterexample :
    parse_qs "a=1&a=2" = some [("a", ["1", "2"])]
    ∧ sanitize_request_data_str initialRegistry [] true false false ["ALL"]
        "a=1&a=2"
      = Except.ok "%2A%2A%2A+masked+%2A%2A%2A=%2A%2A%2A+masked+%2A%2A%2A"
    ∧ parse_qs "%2A%2A%2A+masked+%2A%2A%2A=%2A%2A%2A+masked+%2A%2A%2A"
        = some [(MASK_STRING, [MASK_STRING])]
    ∧ MASK_STRING ≠ "a" := by
  have h1 : parse_qs "a=1&a=2" = some [("a", ["1", "2"])] := by
    rw [show "a=1&a=2" = urlencode (qsToPDict [("a", ["1", "2"])]) from rfl]
    exact parse_urlencode _ (by simp) (by simp) (by simp)
  have hsan : sanitize_request_data_dict initialRegistry [] true false
      ["ALL"] (qsToPDict [("a", ["1", "2"])])
      = Except.ok [(MASK_STRING, PyVal.str MASK_STRING)] := by
    simp [sanitize_request_data_dict, sanitize_data, sanitizeNames,
      get_mask_names, pushScope, initialRegistry, add_mask_processor,
      dInsert, dLookup, deepcopyEntries, deepcopy, deepcopyList, process,
      sanitize_dict, sanitizeDictF, sanitizeItemsF, qsToPDict,
      pyDepthEntries, pyDepth, pyDepthList, compileRules, splitPath,
      stripSlashes, splitOnSlash, insertSegs, MASK_STRING]
  refine ⟨h1, ?_, ?_, by decide⟩
  · simp only [sanitize_request_data_str, h1, hsan]
    rfl
  · rw [show "%2A%2A%2A+masked+%2A%2A%2A=%2A%2A%2A+masked+%2A%2A%2A"
        = urlencode (qsToPDict [(MASK_STRING, [MASK_STRING])]) from rfl]
    exact parse_urlencode _ (by simp) (by simp) (by simp)

/-- C6 amended: for every string that parses as an encoded query string,
provided every selected mask name is registered and no applied rule set has a
top-level terminal wildcard, the string branch of `sanitize_request_data`
returns a string that parses again as a query string with the same key
sequence and the same per-key value counts (multi-value keys restored on
re-encoding), and whose parsed mapping is exactly the mapping-form masking of
the parsed input. -/
theorem C6_qs_roundtrip (reg : Registry) (st : ContextStack)
    (enable sn : Bool) (reqNames : List String) (s : String)
    (d : List (String × List String))
    (hparse : parse_qs s = some d)
    (hreg : ∀ n ∈ sanitizeNames [] (pushScope st reqNames) reg,
      (dLookup reg.mask_processors n).isSome = true)
    (hwild : ∀ n ∈ sanitizeNames [] (pushScope st reqNames) reg,
      ∀ paths, dLookup reg.mask_processors n = some paths
        → dLookup paths "*" ≠ some Rule.leaf) :
    ∃ d2 : List (String × List String),
      sanitize_request_data_str reg st enable sn false reqNames s
          = Except.ok (urlencode (qsToPDict d2))
      ∧ parse_qs (urlencode (qsToPDict d2)) = some d2
      ∧ d2.map Prod.fst = d.map Prod.fst
      ∧ (d2.map fun kv => kv.2.length) = (d.map fun kv => kv.2.length)
      ∧ qsToPDict d2
          = (sanitizeNames [] (pushScope st reqNames) reg).foldl
              (fun x n => processNamed reg enable sn n x) (qsToPDict d) := by
  obtain ⟨hnd, hvals, hne⟩ := parse_qs_props s d hparse
  obtain ⟨d2, hfold, hkeys, hlens⟩ := foldProcess_qs_shape
    (sanitizeNames [] (pushScope st reqNames) reg) reg enable sn hwild d
  refine ⟨d2, ?_, ?_, hkeys, hlens, hfold.symm⟩
  · simp only [sanitize_request_data_str, hparse]
    rw [show sanitize_request_data_dict reg st enable sn reqNames
          (qsToPDict d)
        = sanitize_data reg (pushScope st reqNames) enable sn (qsToPDict d) []
        from rfl]
    simp only [sanitize_data]
    rw [foldProcessors_ok reg enable sn _ _ hreg, deepcopyEntries_eq, hfold]
    rfl
  · exact parse_urlencode d2 (by rw [hkeys]; exact hnd)
      (qs_vals_transfer d2 d hlens hvals)
      (by
        intro hcon
        rw [hcon] at hkeys
        exact hne (List.map_eq_nil_iff.mp hkeys.symm))

/-- Closed instance of `C6_qs_roundtrip`: the `Pat1` rule set applied to
`"key1=hide&key2=show"` (the repository's own test case). -/
theorem C6_qs_roundtrip_witness :
    ∃ d2 : List (String × List String),
      sanitize_request_data_str
          (add_mask_processor initialRegistry "Pat1" (compileRules ["key1"])
            false)
          [] true false false ["Pat1"] "key1=hide&key2=show"
        = Except.ok (urlencode (qsToPDict d2))
      ∧ d2.map Prod.fst = ["key1", "key2"] := by
  obtain ⟨d2, h1, _, h3, _, _⟩ := C6_qs_roundtrip
    (add_mask_processor initialRegistry "Pat1" (compileRules ["key1"]) false)
    [] true false ["Pat1"] "key1=hide&key2=show"
    [("key1", ["hide"]), ("key2", ["show"])]
    (by
      rw [show "key1=hide&key2=show"
            = urlencode (qsToPDict [("key1", ["hide"]), ("key2", ["show"])])
          from rfl]
      exact parse_urlencode _ (by simp) (by simp) (by simp))
    (by
      intro n hn
      simp [sanitizeNames, get_mask_names, pushScope, initialRegistry,
        add_mask_processor, dInsert] at hn
      subst hn
      simp [add_mask_processor, initialRegistry, dInsert, dLookup])
    (by
      intro n hn paths hp
      simp [sanitizeNames, get_mask_names, pushScope, initialRegistry,
        add_mask_processor, dInsert] at hn
      subst hn
      simp [add_mask_processor, initialRegistry, dInsert, dLookup] at hp
      subst hp
      intro hcon
      simp [compileRules, splitPath, stripSlashes, splitOnSlash, insertSegs,
        dInsert, dLookup] at hcon)
  exact ⟨d2, h1, by rw [h3]; rfl⟩

/-- C7 counterexample: with the configured maximum 10 (positive and smaller
than the 50-byte margin) and a record longer than 10 bytes, the emitted JSON
does carry the `max_data_exceeded` flag, but the response data field is left
untouched — it does not end with the truncation marker, because
`truncate_length = 10 - 50` is negative and the truncation branch is
skipped. -/
theorem C7_counterexample :
    (jsonDumps (PyVal.dict
        [("msg", PyVal.str "0123456789"),
         ("response", PyVal.dict [("data", PyVal.str "abcdef")])])).length > 10
    ∧ jsonFormatterOutput 10
        [("msg", PyVal.str "0123456789"),
         ("response", PyVal.dict [("data", PyVal.str "abcdef")])]
      = jsonDumps (PyVal.dict
          [("msg", PyVal.str "0123456789"),
           ("response", PyVal.dict [("data", PyVal.str "abcdef")]),
           ("max_data_exceeded", PyVal.bool true)])
    ∧ ¬ ("abcdef".endsWith " **TRUNCATED**") := by
  exact ⟨by decide, by decide, by decide⟩

/-- C7 amended: when the configured maximum is positive but smaller than the
50-byte margin and the serialized record exceeds it, the emitted record
carries the `max_data_exceeded` flag but the response data is NOT truncated
(no truncation marker is appended, since the truncation length is
non-positive); and a configured maximum of zero disables the size check
entirely — no flag and no truncation. -/
theorem C7_truncation_margin (maxJson : Nat) (ld : PDict)
    (h0 : 0 < maxJson) (h50 : maxJson < 50)
    (hover : (jsonDumps (PyVal.dict ld)).length > maxJson) :
    jsonFormatterOutput maxJson ld
      = jsonDumps (PyVal.dict (dInsert ld "max_data_exceeded" (PyVal.bool true)))
    ∧ ∀ ld2 : PDict, jsonFormatterOutput 0 ld2 = jsonDumps (PyVal.dict ld2) := by
  constructor
  · have htl : ¬(0 < (maxJson : Int) - 50) := by omega
    simp only [jsonFormatterOutput]
    rw [if_pos ⟨by omega, hover⟩]
    cases hl :
        dLookup (dInsert ld "max_data_exceeded" (PyVal.bool true)) "response" with
    | none => rfl
    | some v => cases v <;> simp [htl]
  · intro ld2
    simp [jsonFormatterOutput]

/-- Closed instance of `C7_truncation_margin`. -/
theorem C7_truncation_margin_witness :
    jsonFormatterOutput 10 [("msg", PyVal.str "a long enough message")]
      = jsonDumps (PyVal.dict
          [("msg", PyVal.str "a long enough message"),
           ("max_data_exceeded", PyVal.bool true)]) :=
  (C7_truncation_margin 10 [("msg", PyVal.str "a long enough message")]
      (by decide) (by decide) (by decide)).1

/-- C2: when one pattern's segment list is a prefix of the other's, compiling
the two patterns in either order yields the same trie, namely the
single-branch trie of the shorter pattern's effective segments, which ends in
the terminal marker `True`; in particular `"a/b"` then `"a"` and `"a"` then
`"a/b"` both compile to `\x7b"a": True\x7d`. -/
theorem C2_prefix_insertion_order (p q : String)
    (h : splitPath p <+: splitPath q) :
    compileRules [p, q] = compileRules [q, p]
    ∧ compileRules [p, q] = chainSegs (effSegs (splitPath p))
    ∧ lookupPath (compileRules [p, q]) (effSegs (splitPath p))
        = some Rule.leaf
    ∧ compileRules ["a/b", "a"] = [("a", Rule.leaf)]
    ∧ compileRules ["a", "a/b"] = [("a", Rule.leaf)] := by
  have hp := splitPath_ne_nil p
  have h1 : compileRules [p, q]
      = insertSegs (insertSegs [] (splitPath p)) (splitPath q) := rfl
  have h2 : compileRules [q, p]
      = insertSegs (insertSegs [] (splitPath q)) (splitPath p) := rfl
  rw [h1, h2, insertSegs_nil_eq, insertSegs_nil_eq,
      insertSegs_longer _ _ hp h, insertSegs_shorter _ _ hp h]
  exact ⟨rfl, rfl, lookupPath_chainSegs _ (effSegs_ne_nil _ hp), rfl, rfl⟩

/-- Closed instance of `C2_prefix_insertion_order` at `p = "a"`,
`q = "a/b"`. -/
theorem C2_prefix_insertion_order_witness :
    compileRules ["a", "a/b"] = compileRules ["a/b", "a"] :=
  (C2_prefix_insertion_order "a" "a/b" ⟨["b"], rfl⟩).1.symm

/-- C4 counterexample: the claim "a terminal `True` rule replaces every
non-mapping, non-sequence value with the mask string" fails on the code in
two concrete ways.  (1) `chain_mask(None)` is `None`, so a `None` value under
a terminal rule stays `None` instead of becoming the mask string.  (2) With a
top-level wildcard terminal rule and show-nested-keys off, the whole mapping
is collapsed, so the matched key disappears instead of being replaced. -/
theorem C4_counterexample :
    dLookup (compileRules ["k"]) "k" = some Rule.leaf
    ∧ process true false (compileRules ["k"]) [("k", PyVal.none)]
        = [("k", PyVal.none)]
    ∧ PyVal.none ≠ PyVal.str MASK_STRING
    ∧ dLookup (compileRules ["k", "*"]) "k" = some Rule.leaf
    ∧ dLookup
        (process true false (compileRules ["k", "*"]) [("k", PyVal.str "v")])
        "k" = Option.none := by
  refine ⟨?_, ?_, ?_, ?_, ?_⟩
  · simp [compileRules, splitPath, stripSlashes, splitOnSlash, insertSegs,
          dInsert, dLookup]
  · simp [compileRules, splitPath, stripSlashes, splitOnSlash, insertSegs,
          dInsert, process, sanitize_dict, sanitizeDictF, sanitizeItemsF,
          dLookup, pyDepthEntries, pyDepth, chain_mask]
  · simp
  · simp [compileRules, splitPath, stripSlashes, splitOnSlash, insertSegs,
          dInsert, dLookup]
  · simp [compileRules, splitPath, stripSlashes, splitOnSlash, insertSegs,
          dInsert, process, sanitize_dict, sanitizeDictF, sanitizeItemsF,
          dLookup, pyDepthEntries, pyDepth, MASK_STRING]

/-- C4 amended: with the sensitive-paths processor enabled, if key `k` has the
terminal rule `True`, its value is neither a mapping nor a sequence, and the
rule set does not collapse the whole mapping (any top-level terminal wildcard
runs with show-nested-keys on), then a non-`None` value is replaced by the
mask string; a `None` value is left as `None` (shown here when no top-level
wildcard entry exists). -/
theorem C4_terminal_leaf_masked (sn : Bool) (paths : RuleDict) (es : PDict)
    (k : String) (v : PyVal)
    (hrule : dLookup paths k = some Rule.leaf)
    (hv : dLookup es k = some v)
    (hd : isMapping v = false) (hs : isSequence v = false)
    (hwild : dLookup paths "*" = some Rule.leaf → sn = true) :
    (v ≠ PyVal.none
      → dLookup (process true sn paths es) k = some (PyVal.str MASK_STRING))
    ∧ (v = PyVal.none → dLookup paths "*" = Option.none
      → dLookup (process true sn paths es) k = some PyVal.none) := by
  have hproc : process true sn paths es
      = sanitizeItemsF sn paths (pyDepthEntries es)
          (match dLookup paths "*" with
           | some .leaf =>
             if sn then maskValues es
             else [(MASK_STRING, PyVal.str MASK_STRING)]
           | some (.node sub) =>
             sanitizeWildValuesF sn sub (pyDepthEntries es) es
           | Option.none => es) := by
    simp [process, sanitize_dict, sanitizeDictF]
  constructor
  · intro hn
    cases hw : dLookup paths "*" with
    | none =>
      rw [hproc, hw, dLookup_sanitizeItemsF, hv, hrule]
      simp [chain_mask_leaf sn v hd hs hn]
    | some r =>
      cases r with
      | leaf =>
        have hsn := hwild hw
        subst hsn
        rw [hproc, hw, dLookup_sanitizeItemsF]
        simp only [if_pos rfl, hrule, Option.map_eq_some']
        exact ⟨PyVal.str MASK_STRING,
          by rw [if_pos trivial, dLookup_maskValues, hv]; rfl,
          by simp [chain_mask]⟩
      | node sub =>
        rw [hproc, hw, dLookup_sanitizeItemsF, dLookup_sanitizeWildValuesF,
            hv, hrule]
        simp [sanitizeAnyF_leaf sn sub (pyDepthEntries es) v hd hs,
              chain_mask_leaf sn v hd hs hn]
  · intro hn hw
    subst hn
    rw [hproc, hw, dLookup_sanitizeItemsF, hv, hrule]
    simp [chain_mask]

/-- Closed instance of `C4_terminal_leaf_masked`: a plain string under a
terminal rule is replaced by the mask string. -/
theorem C4_terminal_leaf_masked_witness :
    dLookup (process true false [("k", Rule.leaf)] [("k", PyVal.str "s")]) "k"
      = some (PyVal.str MASK_STRING) :=
  (C4_terminal_leaf_masked false [("k", Rule.leaf)] [("k", PyVal.str "s")]
      "k" (PyVal.str "s") (by simp [dLookup]) (by simp [dLookup]) rfl rfl
      (by intro h; simp [dLookup] at h)).1 (by simp)

/-- C5: the context stack behaves as a strict LIFO whose active-name set is
the union over the pushed frames: pushing `\x7b"Pat1"\x7d` then
`\x7b"Pat2"\x7d` makes the active names exactly `\x7b"Pat1", "Pat2"\x7d`,
popping once leaves exactly `\x7b"Pat1"\x7d`, `get_mask_names` is the union
of the frames on the stack, and `pop` removes exactly the most recently
pushed frame. -/
theorem C5_context_stack :
    (∀ n, n ∈ get_mask_names (pushScope (pushScope [] ["Pat1"]) ["Pat2"])
        ↔ (n = "Pat1" ∨ n = "Pat2"))
    ∧ (∀ n, n ∈ get_mask_names
          (popScope (pushScope (pushScope [] ["Pat1"]) ["Pat2"]))
        ↔ n = "Pat1")
    ∧ (∀ (st : ContextStack) (n : String),
        n ∈ get_mask_names st ↔ ∃ frame ∈ st, n ∈ frame)
    ∧ (∀ (st : ContextStack) (names : List String),
        popScope (pushScope st names) = st) := by
  refine ⟨?_, ?_, ?_, ?_⟩
  · intro n; simp [get_mask_names, pushScope]
  · intro n; simp [get_mask_names, pushScope, popScope]
  · intro st n; simp [get_mask_names, List.mem_flatten]
  · intro st names; simp [pushScope, popScope, List.dropLast_concat]

/-- C8: `RequestEdgeEndFilter.filter` passes a record exactly when it is not
a structured ("smart") record or its edge is END — so structured records are
dropped precisely on the START edge and passed precisely on END, while plain
records always pass. -/
theorem C8_end_edge_filter (record : LogRecord) :
    RequestEdgeEndFilter record = true
      ↔ (record.smart = true → record.edge = RequestEdge.END) := by
  obtain ⟨smart, edge⟩ := record
  cases smart <;> cases edge <;> simp [RequestEdgeEndFilter]

/-- Closed instances of `C8_end_edge_filter`. -/
theorem C8_end_edge_filter_witness :
    RequestEdgeEndFilter ⟨true, RequestEdge.END⟩ = true
    ∧ RequestEdgeEndFilter ⟨false, RequestEdge.START⟩ = true := by
  constructor
  · exact (C8_end_edge_filter ⟨true, RequestEdge.END⟩).mpr (fun _ => rfl)
  · exact (C8_end_edge_filter ⟨false, RequestEdge.START⟩).mpr (by simp)

/-- C9: re-registering a name with `is_global=False` overwrites its rule set
but leaves the global-mask set unchanged (a previously global name stays
global), and only `remove_mask_processor` clears the global flag. -/
theorem C9_add_mask_processor_keeps_global (reg : Registry) (n : String)
    (p : RuleDict) :
    dLookup (add_mask_processor reg n p false).mask_processors n = some p
    ∧ (add_mask_processor reg n p false).global_masks = reg.global_masks
    ∧ (n ∈ reg.global_masks
        → n ∈ (add_mask_processor reg n p false).global_masks)
    ∧ n ∉ (remove_mask_processor reg n).global_masks := by
  refine ⟨dLookup_dInsert _ _ _, by simp [add_mask_processor], ?_, ?_⟩
  · intro h; simpa [add_mask_processor] using h
  · simp [remove_mask_processor, List.mem_filter]

/-- Closed instance of `C9_add_mask_processor_keeps_global` on a registry
where `"Pat"` was registered globally and is then overwritten locally. -/
theorem C9_add_mask_processor_keeps_global_witness :
    "Pat" ∈ (add_mask_processor
        (add_mask_processor ⟨[], []⟩ "Pat" [("a", Rule.leaf)] true)
        "Pat" [] false).global_masks :=
  (C9_add_mask_processor_keeps_global
      (add_mask_processor ⟨[], []⟩ "Pat" [("a", Rule.leaf)] true)
      "Pat" []).2.2.1 (by simp [add_mask_processor])

end BostonLogger
